import Mathlib

/-!
Verification of the content-extraction core of the Mumbai-Hacks news/IPO
scraper (src/scraper/news_scraper.py and src/scraper/scrapers-file/detail.py).

Python strings are modelled as lists of characters (`Str`), Python string
methods as executable functions on such lists, and the extraction routines as
pure functions over flattened document models (the lists of nodes that the
BeautifulSoup queries in the source return, in the order they return them).
Fallible code paths (a Python `IndexError` caught by an enclosing
`try/except`) are modelled with `Option`.
-/

set_option maxRecDepth 100000

namespace MH

/-- Python `str` is modelled as a list of characters. -/
abbrev Str := List Char

/-- Characters Python's `str.split()` / `str.strip()` / `\s` treat as
whitespace, restricted to the repertoire relevant here (ASCII whitespace,
NEL and NBSP). -/
def pyIsSpaceChar (c : Char) : Bool :=
  decide (c = ' ' ∨ c = '\t' ∨ c = '\n' ∨ c = '\x0b' ∨ c = '\x0c' ∨ c = '\r' ∨
    c = '\x85' ∨ c = '\xa0')

/-- ASCII decimal digit, as Python `str.isdigit` on the ASCII range. -/
def pyIsDigitChar (c : Char) : Bool := decide ('0' ≤ c ∧ c ≤ '9')

/-- ASCII uppercase letter. -/
def pyIsUpperChar (c : Char) : Bool := decide ('A' ≤ c ∧ c ≤ 'Z')

/-- ASCII lowercase letter. -/
def pyIsLowerChar (c : Char) : Bool := decide ('a' ≤ c ∧ c ≤ 'z')

/-- ASCII cased character (the model's notion of Python "cased"). -/
def pyIsCased (c : Char) : Bool := pyIsUpperChar c || pyIsLowerChar c

/-- ASCII letter. -/
def pyIsAlphaChar (c : Char) : Bool := pyIsCased c

/-- Lowercase one character (ASCII case mapping, as Python `str.lower` on
the ASCII range; other characters are returned unchanged). -/
def pyLowerChar (c : Char) : Char :=
  if pyIsUpperChar c then Char.ofNat (c.toNat + 32) else c

/-- Uppercase one character (ASCII case mapping). -/
def pyUpperChar (c : Char) : Char :=
  if pyIsLowerChar c then Char.ofNat (c.toNat - 32) else c

/-- Python `str.lower()`. -/
def pyLower (s : Str) : Str := s.map pyLowerChar

/-- Python `str.isupper()`: at least one cased character and every cased
character uppercase. -/
def pyIsUpperStr (s : Str) : Bool :=
  s.any pyIsCased && s.all (fun c => !pyIsCased c || pyIsUpperChar c)

/-- Python `str.strip()`: drop whitespace from both ends. -/
def pyStrip (s : Str) : Str :=
  ((s.dropWhile pyIsSpaceChar).reverse.dropWhile pyIsSpaceChar).reverse

/-- One step of splitting on whitespace: a space opens a new (possibly empty)
piece, any other character is prepended to the current first piece. -/
def splitStep (c : Char) (acc : List Str) : List Str :=
  if pyIsSpaceChar c then [] :: acc
  else
    match acc with
    | [] => [[c]]
    | w :: ws => (c :: w) :: ws

/-- The pieces of a string between whitespace, possibly empty pieces
included. -/
def pySplitRaw (s : Str) : List Str := s.foldr splitStep []

/-- Python `str.split()` with no argument: maximal whitespace-free runs,
empty pieces dropped. -/
def pySplit (s : Str) : List Str := (pySplitRaw s).filter (fun w => w ≠ [])

/-- Boolean prefix test on character lists. -/
def pfxB : Str → Str → Bool
  | [], _ => true
  | _ :: _, [] => false
  | a :: as, b :: bs => a == b && pfxB as bs

/-- Python's substring test `needle in hay`. -/
def subB (needle : Str) : Str → Bool
  | [] => needle.isEmpty
  | c :: cs => pfxB needle (c :: cs) || subB needle cs

/-! ### Validity Classifier (news_scraper.py, `is_valid_article`) -/

/-- `NOISE_KEYWORDS` of news_scraper.py. -/
def NOISE_KEYWORDS : List Str :=
  ["subscribe".toList, "newsletter".toList, "download".toList, "app".toList,
   "cookie".toList, "privacy policy".toList, "terms of service".toList,
   "copyright".toList, "all rights reserved".toList, "most watched".toList,
   "trending now".toList, "latest news".toList, "also in news".toList,
   "more to explore".toList, "read more".toList, "click here".toList,
   "advertise".toList, "contact us".toList, "about us".toList,
   "follow us".toList, "social media".toList, "login".toList,
   "sign up".toList, "register".toList, "wait for it".toList,
   "congratulations".toList, "you are now subscribed".toList,
   "stock recommendations".toList, "buy/sell signals".toList,
   "market calendar".toList, "find your first".toList,
   "board meeting".toList, "quarterly results".toList]

/-- `NAVIGATION_TITLES` of news_scraper.py ("india inc's scorecard" is
written with an explicit U+0027 to spell the apostrophe). -/
def NAVIGATION_TITLES : List Str :=
  ["stock recommendations".toList, "buy/sell signals".toList,
   "market calendar".toList, "bse announcement".toList,
   "find your first".toList, "latest news".toList, "trending".toList,
   "most watched".toList, "also in news".toList, "more to explore".toList,
   "newsnews".toList, "currency converter".toList,
   "calendar spread".toList, "digital real estate".toList,
   "india inc".toList ++ [Char.ofNat 39] ++ "s scorecard".toList,
   "cryptocurrencybitcoin".toList, "currenciesforex".toList,
   "commoditybullion".toList, "ipostartups".toList]

/-- `GENERIC_SUMMARIES` of news_scraper.py. -/
def GENERIC_SUMMARIES : List Str :=
  ["trending in markets".toList, "quick links".toList,
   "discover bonds that meet".toList, "board meeting".toList,
   "quarterly results".toList, "download the mint app".toList,
   "read premium stories".toList, "got a confidential news tip".toList,
   "subscribe".toList, "download the app".toList, "read premium".toList,
   "sign up".toList, "log in".toList]

/-- Trivial titles rejected at news_scraper.py line 76. -/
def TRIVIAL_TITLES : List Str :=
  ["news".toList, "newsnews".toList, "latest".toList, "more".toList,
   "read".toList, "watch".toList]

/-- Section-header titles rejected at news_scraper.py lines 80-83. -/
def SECTION_HEADER_TITLES : List Str :=
  ["india news".toList, "economy news".toList, "politics news".toList,
   "sports news".toList, "science news".toList, "defence news".toList,
   "international news".toList, "company news".toList,
   "market calendar".toList, "stock recommendations".toList]

/-- `section_indicators` of news_scraper.py lines 111-112. -/
def SECTION_INDICATORS : List Str :=
  ["bitcoin, blockchain".toList, "forex & futures".toList,
   "startups, grey market".toList, "bullion, base metals".toList,
   "all else".toList, "scorecard".toList]

/-- Lines 91-116 of `is_valid_article` (the checks after the bare-name
heuristic). -/
def ivaTail (title title_lower summary summary_lower link : Str) : Bool :=
  if link = [] ∧ (summary = [] ∨ summary.length < 20) then false
  else if summary ≠ [] ∧ GENERIC_SUMMARIES.any (fun gs => subB gs summary_lower) then false
  else if summary ≠ [] ∧ summary.length < 30 ∧
      ["trending".toList, "links".toList, "discover".toList, "find".toList].any
        (fun w => subB w summary_lower) then false
  else if title ≠ [] ∧ (pyIsUpperStr title ∨ (pySplit title).length ≤ 2) ∧
      ¬ ([':', '-', '?', '!', ','].any (fun c => c ∈ title)) then false
  else if SECTION_INDICATORS.any (fun ind => subB ind title_lower) then false
  else true

/-- `is_valid_article(title, summary, link)` of news_scraper.py.
Returns `none` where Python raises `IndexError` (indexing `title_lower[0]`
on an empty string); every other path returns `some` of the boolean the
Python function returns. -/
def is_valid_article (title summary link : Str) : Option Bool :=
  if title = [] ∨ title.length < 15 then some false
  else
    let title_lower := pyStrip (pyLower title)
    let summary_lower := pyLower summary
    if title_lower ∈ NAVIGATION_TITLES then some false
    else if NOISE_KEYWORDS.any (fun k => subB k title_lower || subB k summary_lower) then
      some false
    else if title_lower ∈ TRIVIAL_TITLES then some false
    else if title_lower ∈ SECTION_HEADER_TITLES then some false
    else if (pySplit title).length ≤ 2 ∧ ¬ title.any pyIsDigitChar then
      if pyIsUpperStr title_lower then some false
      else
        match title_lower with
        | [] => none
        | c0 :: _ =>
          if pyIsUpperChar c0 ∧ ¬ ([':', '-', '?', '!'].any (fun c => c ∈ title)) then
            some false
          else some (ivaTail title title_lower summary summary_lower link)
    else some (ivaTail title title_lower summary summary_lower link)

/-! ### Date validation (news_scraper.py, `validate_date`) -/

/-- Attempt of the regex `20[2-3][0-9]` at the head of the string, returning
the matched year's numeric value. -/
def yearAt (s : Str) : Option Nat :=
  match s with
  | '2' :: '0' :: y :: d :: _ =>
    if (y = '2' ∨ y = '3') ∧ pyIsDigitChar d then
      some (2000 + 10 * (y.toNat - 48) + (d.toNat - 48))
    else none
  | _ => none

/-- `re.search(r"20[2-3][0-9]", s)`: value of the leftmost match. -/
def yearMatch : Str → Option Nat
  | [] => none
  | c :: cs =>
    match yearAt (c :: cs) with
    | some y => some y
    | none => yearMatch cs

/-- The literal `00-00` rejected by `validate_date`. -/
def BAD_DATE_1 : Str := "00-00".toList

/-- The literal `00/00` rejected by `validate_date`. -/
def BAD_DATE_2 : Str := "00/00".toList

/-- `validate_date(date_str)` of news_scraper.py. -/
def validate_date (date_str : Str) : Bool :=
  if date_str = [] then false
  else if subB BAD_DATE_1 date_str ∨ subB BAD_DATE_2 date_str then false
  else
    match yearMatch date_str with
    | none => false
    | some y => decide (2020 ≤ y ∧ y ≤ 2030)

/-! ### Text normalizers (news_scraper.py `clean_text`, detail.py `clean_text`) -/

/-- Python `str.replace(a, b)` for a one-character pattern and
replacement: every occurrence is a single position, so the left-to-right
non-overlapping scan is exactly a character map. -/
def pyReplaceChar (a b : Char) (s : Str) : Str :=
  s.map (fun c => if c = a then b else c)

/-- Python `str.replace('â‚¹', '₹')` (news_scraper.py line 217): the
left-to-right non-overlapping scan for this fixed three-character pattern.
On a match three characters are consumed and the rupee sign is emitted,
otherwise the scan advances one character. -/
def fixRupee : Str → Str
  | 'â' :: '‚' :: '¹' :: rest => '₹' :: fixRupee rest
  | c :: rest => c :: fixRupee rest
  | [] => []

/-- One step of `re.sub(r"\s+", " ", s)` as a right fold: a whitespace
character merges into a following collapsed space or produces one. -/
def subWSStep (c : Char) (acc : Str) : Str :=
  if pyIsSpaceChar c then
    if acc.head? = some ' ' then acc else ' ' :: acc
  else c :: acc

/-- `re.sub(r"\s+", " ", s)` (detail.py line 15): replace every maximal
whitespace run by a single space.  (Any collapsed space at the head of the
accumulator stands for the run immediately to the right, so a whitespace
character left of it merges into it.) -/
def subWS (s : Str) : Str := s.foldr subWSStep []

/-- The mis-encoded rupee sequence `â‚¹` (U+00E2 U+201A U+00B9) fixed by
news_scraper.py line 217. -/
def RUPEE_BAD : Str := ['â', '‚', '¹']

/-- `" ".join(words)`: concatenate with a single-space separator. -/
def joinSpace : List Str → Str
  | [] => []
  | [w] => w
  | w :: ws => w ++ ' ' :: joinSpace ws

/-- `" ".join(s.split())` of news_scraper.py line 216. -/
def wsNorm (s : Str) : Str := joinSpace (pySplit s)

/-- `clean_text(text)` of news_scraper.py lines 212-218: collapse
whitespace, fix the three known mis-encodings, strip. -/
def clean_text (t : Str) : Str :=
  if t = [] then []
  else
    pyStrip (pyReplaceChar '’' (Char.ofNat 39) (pyReplaceChar '\xa0' ' ' (fixRupee (wsNorm t))))

/-- `clean_text(text)` of detail.py lines 10-16: strip, then collapse
whitespace runs to single spaces. -/
def detail_clean_text (t : Str) : Str :=
  if t = [] then [] else subWS (pyStrip t)

/-! ### Further Python string primitives -/

/-- One step of `str.split(sep)`: a separator opens a new piece, any other
character is prepended to the current first piece (the accumulator always
holds at least one piece). -/
def splitOnStep (sep : Char) (c : Char) (acc : List Str) : List Str :=
  if c = sep then [] :: acc
  else
    match acc with
    | [] => [[c]]
    | w :: ws => (c :: w) :: ws

/-- Python `str.split(sep)` for a one-character separator: empty pieces are
kept, and the empty string yields `[""]`. -/
def pySplitOn (sep : Char) (s : Str) : List Str :=
  s.foldr (splitOnStep sep) [[]]

/-- Python `str.strip(ch)` for a one-character argument: drop that
character from both ends. -/
def pyStripChar (ch : Char) (s : Str) : Str :=
  ((s.dropWhile (fun c => c = ch)).reverse.dropWhile (fun c => c = ch)).reverse

/-- Python `str.title()` on the ASCII range: uppercase every letter that
follows a non-letter (or starts the string), lowercase the other letters.
The boolean argument records whether the previous character was a letter. -/
def pyTitleGo : Bool → Str → Str
  | _, [] => []
  | prev, c :: cs =>
    if pyIsAlphaChar c then
      (if prev then pyLowerChar c else pyUpperChar c) :: pyTitleGo true cs
    else c :: pyTitleGo false cs

/-- Python `str.title()`. -/
def pyTitle (s : Str) : Str := pyTitleGo false s

/-- Insert into a Python-dict association list: an existing key keeps its
position and takes the new value, a new key is appended. -/
def dictInsert (m : List (Str × Str)) (k v : Str) : List (Str × Str) :=
  if m.any (fun p => p.1 = k) then
    m.map (fun p => if p.1 = k then (k, v) else p)
  else m ++ [(k, v)]

/-- Python `dict(pairs)`: insertion order, last value wins per key. -/
def pyDict (l : List (Str × Str)) : List (Str × Str) :=
  l.foldl (fun m p => dictInsert m p.1 p.2) []

/-! ### Model of `urllib.parse` (external library used by the scrapers)

`urlsplit`/`urljoin`/`urlunsplit` are modelled after CPython's
implementation for hierarchical URLs; the rarely-used `;parameters`
component is not modelled (none of the URLs handled here carry one). -/

/-- Characters allowed in a URL scheme after the first letter. -/
def isSchemeChar (c : Char) : Bool :=
  pyIsAlphaChar c || pyIsDigitChar c || decide (c = '+' ∨ c = '-' ∨ c = '.')

/-- Split a leading `scheme:` off a URL, CPython `urlsplit` style: the part
before the first colon counts as a scheme when it is nonempty, starts with
a letter and contains only scheme characters.  Returns the lowercased
scheme (or `[]`) and the remainder. -/
def schemeSplit (url : Str) : Str × Str :=
  let i := url.findIdx (fun c => c = ':')
  if i = 0 ∨ url.length ≤ i then ([], url)
  else
    let pre := url.take i
    match pre with
    | [] => ([], url)
    | c :: _ =>
      if pyIsAlphaChar c ∧ pre.all isSchemeChar then (pyLower pre, url.drop (i + 1))
      else ([], url)

/-- The five components of `urlsplit`. -/
structure UrlParts where
  scheme : Str
  netloc : Str
  path : Str
  query : Str
  fragment : Str
deriving DecidableEq

/-- Split at the first occurrence of `c`: the part before, and the part
after when `c` occurs. -/
def splitFirst (c : Char) (s : Str) : Str × Option Str :=
  if c ∈ s then (s.takeWhile (fun d => d ≠ c), some ((s.dropWhile (fun d => d ≠ c)).drop 1))
  else (s, none)

/-- `urllib.parse.urlsplit` (params not modelled). -/
def urlsplitM (url : Str) : UrlParts :=
  let sr := schemeSplit url
  let nr :=
    if pfxB ("//".toList) sr.2 then
      let r := sr.2.drop 2
      (r.takeWhile (fun c => c ≠ '/' ∧ c ≠ '?' ∧ c ≠ '#'),
       r.dropWhile (fun c => c ≠ '/' ∧ c ≠ '?' ∧ c ≠ '#'))
    else ([], sr.2)
  let fr := splitFirst '#' nr.2
  let qr := splitFirst '?' fr.1
  { scheme := sr.1, netloc := nr.1, path := qr.1,
    query := (qr.2).getD [], fragment := (fr.2).getD [] }

/-- `uses_relative` of `urllib.parse`. -/
def uses_relative : List Str :=
  [[], "ftp".toList, "http".toList, "gopher".toList, "nntp".toList,
   "imap".toList, "wais".toList, "file".toList, "https".toList,
   "shttp".toList, "mms".toList, "prospero".toList, "rtsp".toList,
   "rtspu".toList, "sftp".toList, "svn".toList, "svn+ssh".toList,
   "ws".toList, "wss".toList]

/-- `uses_netloc` of `urllib.parse`. -/
def uses_netloc : List Str :=
  [[], "ftp".toList, "http".toList, "gopher".toList, "nntp".toList,
   "telnet".toList, "imap".toList, "wais".toList, "file".toList,
   "mms".toList, "https".toList, "shttp".toList, "snews".toList,
   "prospero".toList, "rtsp".toList, "rtspu".toList, "rsync".toList,
   "svn".toList, "svn+ssh".toList, "sftp".toList, "nfs".toList,
   "git".toList, "git+ssh".toList, "ws".toList, "wss".toList]

/-- `urllib.parse.urlunsplit`. -/
def urlunsplitM (p : UrlParts) : Str :=
  let u0 := p.path
  let u1 :=
    if p.netloc ≠ [] ∨ pfxB ("//".toList) u0 then
      ("//".toList) ++ p.netloc ++ (if u0 ≠ [] ∧ ¬ pfxB ("/".toList) u0 then '/' :: u0 else u0)
    else u0
  let u2 := if p.scheme ≠ [] then p.scheme ++ ':' :: u1 else u1
  let u3 := if p.query ≠ [] then u2 ++ '?' :: p.query else u2
  if p.fragment ≠ [] then u3 ++ '#' :: p.fragment else u3

/-- The dot-segment resolution loop of `urljoin`. -/
def mergeSegs (segs : List Str) : List Str :=
  segs.foldl
    (fun acc seg =>
      if seg = "..".toList then acc.dropLast
      else if seg = ".".toList then acc
      else acc ++ [seg]) []

/-- `segments[1:-1] = filter(None, segments[1:-1])` of `urljoin`. -/
def filterMiddle (l : List Str) : List Str :=
  match l with
  | [] => []
  | [x] => [x]
  | x :: xs =>
    x :: (xs.dropLast.filter (fun s => s ≠ []) ++
      (match xs.getLast? with | some y => [y] | none => []))

/-- `urllib.parse.urljoin(base, url)` (params not modelled). -/
def urljoinM (base url : Str) : Str :=
  if base = [] then url
  else if url = [] then base
  else
    let b := urlsplitM base
    let u := urlsplitM url
    let scheme := if u.scheme = [] then b.scheme else u.scheme
    if scheme ≠ b.scheme ∨ scheme ∉ uses_relative then url
    else if scheme ∈ uses_netloc ∧ u.netloc ≠ [] then
      urlunsplitM { scheme := scheme, netloc := u.netloc, path := u.path,
                    query := u.query, fragment := u.fragment }
    else
      let netloc := if scheme ∈ uses_netloc then b.netloc else u.netloc
      if u.path = [] then
        urlunsplitM { scheme := scheme, netloc := netloc, path := b.path,
                      query := (if u.query = [] then b.query else u.query),
                      fragment := u.fragment }
      else
        let segs :=
          if pfxB ("/".toList) u.path then pySplitOn '/' u.path
          else
            let bparts := pySplitOn '/' b.path
            let bparts := if bparts.getLast? ≠ some [] then bparts.dropLast else bparts
            filterMiddle (bparts ++ pySplitOn '/' u.path)
        let resolved := mergeSegs segs
        let resolved :=
          if segs.getLast? = some (".".toList) ∨ segs.getLast? = some ("..".toList) then
            resolved ++ [[]]
          else resolved
        let joined := List.intercalate ['/'] resolved
        urlunsplitM { scheme := scheme, netloc := netloc,
                      path := (if joined = [] then "/".toList else joined),
                      query := u.query, fragment := u.fragment }

/-! ### Category Extractor (news_scraper.py, `extract_category`) -/

/-- `extract_category(soup, article_elem, url)` of news_scraper.py.
`metaContent` models the page metadata lookup: `none` when neither an
`article:section` nor a `category` meta tag exists, `some c` for the
`content` attribute (possibly empty) of the first one found. -/
def extract_category (metaContent : Option Str) (url : Str) : Str :=
  let category := (metaContent).getD []
  if category = [] ∧ url ≠ [] then
    let path_parts := pySplitOn '/' (pyStripChar '/' (urlsplitM url).path)
    if path_parts.length > 1 then
      pyTitle (pyReplaceChar '-' ' ' (path_parts.headD []))
    else []
  else category

/-! ### Table Extractor (detail.py, `extract_structured_tables`) -/

/-- Where a `tr` element sits inside its table. -/
inductive RowLoc where
  | inHead : RowLoc
  | inBody : RowLoc
  | loose : RowLoc
deriving DecidableEq

/-- A `tr` element: its location and its `th`/`td` cells in order, each
cell carrying whether it is a `th` and its raw text. -/
structure TRow where
  loc : RowLoc
  cells : List (Bool × Str)
deriving DecidableEq

/-- A `table` element as the extractor queries it: optional `caption` text,
whether `thead`/`tbody` elements exist, and all `tr` descendants in
document order. -/
structure TableNode where
  captionText : Option Str
  hasThead : Bool
  hasTbody : Bool
  trs : List TRow
deriving DecidableEq

/-- An output row: a zipped header-to-cell mapping or a plain cell list. -/
inductive OutRow where
  | dict : List (Str × Str) → OutRow
  | plain : List Str → OutRow
deriving DecidableEq

/-- The emitted table record. -/
structure TableRec where
  caption : Str
  headers : List Str
  rows : List OutRow
deriving DecidableEq

/-- `thead.find("tr")`: the first row inside the `thead`, when a `thead`
exists. -/
def theadFirstTr (t : TableNode) : Option TRow :=
  if t.hasThead then (t.trs.filter (fun r => r.loc = RowLoc.inHead)).head? else none

/-- Lines 71-90: headers from the `thead`'s first row, else from the
table's first row when that row has a `th` cell or more than 2 cells. -/
def tableHeaders (t : TableNode) : List Str :=
  if t.hasThead then
    match theadFirstTr t with
    | some r => r.cells.map (fun c => detail_clean_text c.2)
    | none => []
  else
    match t.trs.head? with
    | some r =>
      if r.cells.any (fun c => c.1) ∨ r.cells.length > 2 then
        r.cells.map (fun c => detail_clean_text c.2)
      else []
    | none => []

/-- Line 94: rows from the `tbody` when one exists, else all rows. -/
def bodySource (t : TableNode) : List TRow :=
  if t.hasTbody then t.trs.filter (fun r => r.loc = RowLoc.inBody) else t.trs

/-- Line 97: skip the first body row iff there is no `thead` and headers
were extracted (from the first row). -/
def startIdx (t : TableNode) : Nat :=
  if ¬ t.hasThead ∧ tableHeaders t ≠ [] then 1 else 0

/-- Lines 104-111: zip a row into a mapping when the cell count equals the
header count (and headers exist), else keep the plain cell list. -/
def materialise (hs texts : List Str) : OutRow :=
  if hs ≠ [] ∧ texts.length = hs.length then OutRow.dict (pyDict (hs.zip texts))
  else OutRow.plain texts

/-- Lines 59-115: process one table node. -/
def processTable (t : TableNode) : TableRec :=
  let hs := tableHeaders t
  { caption := (t.captionText.map detail_clean_text).getD [],
    headers := hs,
    rows := ((bodySource t).drop (startIdx t)).foldr
      (fun r acc =>
        if r.cells = [] then acc
        else materialise hs (r.cells.map (fun c => detail_clean_text c.2)) :: acc) [] }

/-- `extract_structured_tables(soup)` of detail.py: every table node in
document order, emitted only when it has headers or rows. -/
def extract_structured_tables (ts : List TableNode) : List TableRec :=
  (ts.map processTable).filter (fun td => decide (td.rows ≠ [] ∨ td.headers ≠ []))

/-! ### Section Builder (detail.py, `extract_content_sections`) -/

/-- A node of the flattened document-order traversal
`soup.find_all(["h1", ..., "h6", "p", "div"])`. -/
inductive PageElem where
  | heading : Nat → Str → PageElem
  | block : Str → PageElem
deriving DecidableEq

/-- An emitted content section. -/
structure Sec where
  heading : Str
  level : Nat
  content : List Str
deriving DecidableEq

/-- The boilerplate phrases of detail.py line 184. -/
def SECTION_SKIP : List Str :=
  ["cookie".toList, "privacy".toList, "terms".toList, "copyright".toList,
   "menu".toList, "navigation".toList]

/-- Line 183: a block qualifies when nonempty, longer than 20 characters
and free of boilerplate phrases. -/
def goodBlock (t : Str) : Bool :=
  decide (t ≠ []) && decide (t.length > 20) &&
    ! SECTION_SKIP.any (fun k => subB k (pyLower t))

/-- Lines 165-191: the single-slot traversal.  The accumulator holds the
currently open section, committed when nonempty at the next heading or at
the end. -/
def sectionsGo : Option Sec → List PageElem → List Sec
  | none, [] => []
  | some s, [] => if s.content ≠ [] then [s] else []
  | cur, PageElem.heading lv tx :: rest =>
    (match cur with
     | some s => if s.content ≠ [] then [s] else []
     | none => []) ++
      sectionsGo (some { heading := detail_clean_text tx, level := lv, content := [] }) rest
  | none, PageElem.block _ :: rest => sectionsGo none rest
  | some s, PageElem.block tx :: rest =>
    let t := detail_clean_text tx
    if goodBlock t then sectionsGo (some { s with content := s.content ++ [t] }) rest
    else sectionsGo (some s) rest

/-- `extract_content_sections(soup)` of detail.py. -/
def extract_content_sections (es : List PageElem) : List Sec :=
  sectionsGo none es

/-! ### Link Classifier (detail.py, `extract_meaningful_links`) -/

/-- An anchor element with an `href` attribute, as returned by
`soup.find_all("a", href=True)`: its destination and its visible text. -/
structure Anchor where
  href : Str
  text : Str
deriving DecidableEq

/-- An emitted link record. -/
structure LinkRec where
  text : Str
  url : Str
  type : Str
deriving DecidableEq

/-- `skip_patterns` of detail.py lines 126-131. -/
def SKIP_PATTERNS : List Str :=
  ["#".toList, "javascript:".toList, "mailto:".toList, "tel:".toList,
   "/login".toList, "/register".toList, "/signup".toList, "/logout".toList,
   "facebook.com".toList, "twitter.com".toList, "linkedin.com".toList,
   "instagram.com".toList, "youtube.com".toList]

/-- The bare-symbol texts of detail.py line 142. -/
def BARE_SYMBOLS : List Str :=
  ["#".toList, "...".toList, "»".toList, "«".toList, "←".toList, "→".toList]

/-- Lines 133-157: filter, resolve, deduplicate by resolved URL, classify
by comparing hosts. -/
def linksGo (base : Str) (seen : List Str) : List Anchor → List LinkRec
  | [] => []
  | a :: rest =>
    let href := a.href
    let text := detail_clean_text a.text
    if href = [] ∨ SKIP_PATTERNS.any (fun p => subB p (pyLower href)) then
      linksGo base seen rest
    else if text.length < 2 ∨ text ∈ BARE_SYMBOLS then linksGo base seen rest
    else
      let full := urljoinM base href
      if full ∈ seen then linksGo base seen rest
      else
        { text := text, url := full,
          type :=
            if (urlsplitM full).netloc ≠ (urlsplitM base).netloc then "external".toList
            else "internal".toList } :: linksGo base (full :: seen) rest

/-- `extract_meaningful_links(soup, base_url)` of detail.py. -/
def extract_meaningful_links (anchors : List Anchor) (base : Str) : List LinkRec :=
  linksGo base [] anchors

/-! ### Article records and the Dedup/Aggregator (news_scraper.py) -/

/-- An emitted article record (`scraped_at` is the caller's clock). -/
structure Article where
  title : Str
  link : Str
  summary : Str
  date : Str
  category : Str
  source : Str
  scraped_at : Str
deriving DecidableEq

/-- The dedup key of news_scraper.py line 612:
`article.get("title", "").lower().strip()`. -/
def akey (a : Article) : Str := pyStrip (pyLower a.title)

/-- Lines 611-615: keep a record iff its key is nonempty and unseen. -/
def dedupeByTitle (seen : List Str) : List Article → List Article
  | [] => []
  | a :: rest =>
    let k := akey a
    if k ≠ [] ∧ k ∉ seen then a :: dedupeByTitle (k :: seen) rest
    else dedupeByTitle seen rest

/-- The merge step of `run_super_scraper`, applied to the concatenation of
every strategy's output across all sites, with one seen-title set. -/
def merge_step (arts : List Article) : List Article := dedupeByTitle [] arts

/-! ### Extraction strategies (news_scraper.py; HTTP fetch and parsing are
the external collaborators, so each strategy consumes the flattened
query results its BeautifulSoup calls would return) -/

/-- One `<article>` element of `scrape_static_article`, flattened along the
queries the code performs.  `titleText`: text of
`article.find(["h1","h2","h3"])`; `aInTitle`: `some h` when the title tag
contains an `<a>` (`h` its optional `href` attribute); `articleAHref`: href
of `article.find("a", href=True)`; `selectorTexts`: for each of the ten
summary selectors in order, the texts of its matches in document order;
`paraTexts`: texts of the `<p>` descendants in order; `dateText`: the value
`extract_date(soup, article)` returns for this element (date extraction is
orthogonal to every claim and supplied as input). -/
structure StaticArticleElem where
  titleText : Option Str
  aInTitle : Option (Option Str)
  articleAHref : Option Str
  selectorTexts : List (List Str)
  paraTexts : List Str
  dateText : Str
deriving DecidableEq

/-- A fetched page for `scrape_static_article` (and `scrape_js`, which
performs the same queries but summarizes from the first paragraph). -/
structure StaticPage where
  url : Str
  metaCategory : Option Str
  now : Str
  articles : List StaticArticleElem
deriving DecidableEq

/-- Line 248: `title_tag.find("a") or article.find("a", href=True)`. -/
def chosenHref (e : StaticArticleElem) : Option Str :=
  match e.aInTitle with
  | some hrefOpt => hrefOpt
  | none => e.articleAHref

/-- Lines 249-256 (same logic at 343-349, 424-431, 509-516): prefix
`https:` onto scheme-relative links, resolve root-relative links against
the page URL, keep anything else as is; an absent or empty href yields an
empty link. -/
def normalizeLink (href : Option Str) (url : Str) : Str :=
  match href with
  | none => []
  | some h =>
    if h = [] then []
    else if pfxB ("http".toList) h then h
    else if pfxB ("//".toList) h then ("https:".toList) ++ h
    else if pfxB ("/".toList) h then urljoinM url h
    else h

/-- Lines 269-272: a summary candidate qualifies when nonempty, of length
in (40, 500), and free of generic phrases. -/
def goodSummary (t : Str) : Bool :=
  decide (t ≠ []) && decide (40 < t.length) && decide (t.length < 500) &&
    ! GENERIC_SUMMARIES.any (fun gs => subB gs (pyLower t))

/-- Lines 263-273: the first two matches of each selector, cleaned and
filtered. -/
def selCands (lists : List (List Str)) : List Str :=
  lists.flatMap (fun ts => ((ts.take 2).map clean_text).filter goodSummary)

/-- Lines 276-284: fallback to the first qualifying paragraph among the
first three. -/
def paraCand (ps : List Str) : Option Str :=
  ((ps.take 3).map clean_text).find? goodSummary

/-- `max(candidates, key=len)`: leftmost longest. -/
def maxByLen : List Str → Str
  | [] => []
  | c :: cs => cs.foldl (fun best t => if t.length > best.length then t else best) c

/-- Lines 259-288: the Summary Selector of `scrape_static_article`. -/
def chooseSummary (e : StaticArticleElem) : Str :=
  let cands := selCands e.selectorTexts
  if cands = [] then
    match paraCand e.paraTexts with
    | some t => t
    | none => []
  else maxByLen cands

/-- Lines 297-306: the record assembled for a valid static article. -/
def mkStaticArticle (pg : StaticPage) (e : StaticArticleElem) (title : Str) : Article :=
  let link := normalizeLink (chosenHref e) pg.url
  { title := title, link := link,
    summary := (chooseSummary e).take 400,
    date := e.dateText,
    category := extract_category pg.metaCategory (if link ≠ [] then link else pg.url),
    source := pg.url, scraped_at := pg.now }

/-- Lines 236-307: the loop of `scrape_static_article`.  `none` models an
exception escaping the loop (caught at line 309, turning the whole result
into `[]`). -/
def staticGo (pg : StaticPage) (seen : List Str) :
    List StaticArticleElem → Option (List Article)
  | [] => some []
  | e :: rest =>
    match e.titleText with
    | none => staticGo pg seen rest
    | some raw =>
      let title := clean_text raw
      if title = [] ∨ pyLower title ∈ seen then staticGo pg seen rest
      else
        let seen' := pyLower title :: seen
        match is_valid_article title (chooseSummary e) (normalizeLink (chosenHref e) pg.url) with
        | none => none
        | some true =>
          match staticGo pg seen' rest with
          | none => none
          | some tail => some (mkStaticArticle pg e title :: tail)
        | some false => staticGo pg seen' rest

/-- `scrape_static_article(url)` on a fetched page. -/
def scrape_static_article (pg : StaticPage) : List Article :=
  (staticGo pg [] pg.articles).getD []

/-- One heading element of `scrape_headlines`: its text, the href of
`h.find("a", href=True)`, the text of `h.find_next("p")`, and the date
`extract_date(soup, h.parent)` yields. -/
structure HeadlineElem where
  text : Str
  aHref : Option Str
  nextPText : Option Str
  dateText : Str
deriving DecidableEq

/-- A fetched page for `scrape_headlines`: the `h1`/`h2`/`h3`/`h4`
elements, grouped by tag as the code iterates them. -/
structure HeadlinePage where
  url : Str
  metaCategory : Option Str
  now : Str
  h1s : List HeadlineElem
  h2s : List HeadlineElem
  h3s : List HeadlineElem
  h4s : List HeadlineElem
deriving DecidableEq

/-- Lines 365-373: the record assembled for a valid headline. -/
def mkHeadArticle (pg : HeadlinePage) (h : HeadlineElem) (title : Str) : Article :=
  let link := normalizeLink h.aHref pg.url
  let summary := match h.nextPText with | some p => clean_text p | none => []
  { title := title, link := link, summary := summary.take 400,
    date := h.dateText,
    category := extract_category pg.metaCategory (if link ≠ [] then link else pg.url),
    source := pg.url, scraped_at := pg.now }

/-- Lines 331-373: the loop of `scrape_headlines`. -/
def headGo (pg : HeadlinePage) (seen : List Str) :
    List HeadlineElem → Option (List Article)
  | [] => some []
  | h :: rest =>
    let title := clean_text h.text
    if title = [] ∨ title.length < 15 ∨ pyLower title ∈ seen then headGo pg seen rest
    else
      let seen' := pyLower title :: seen
      let summary := match h.nextPText with | some p => clean_text p | none => []
      match is_valid_article title summary (normalizeLink h.aHref pg.url) with
      | none => none
      | some true =>
        match headGo pg seen' rest with
        | none => none
        | some tail => some (mkHeadArticle pg h title :: tail)
      | some false => headGo pg seen' rest

/-- `scrape_headlines(url)` on a fetched page. -/
def scrape_headlines (pg : HeadlinePage) : List Article :=
  (headGo pg [] (pg.h1s ++ pg.h2s ++ pg.h3s ++ pg.h4s)).getD []

/-- Lines 496-533: the loop of `scrape_js`, identical to the static loop
except that the title length is checked eagerly and the summary is the
first paragraph's text. -/
def jsGo (pg : StaticPage) (seen : List Str) :
    List StaticArticleElem → Option (List Article)
  | [] => some []
  | e :: rest =>
    match e.titleText with
    | none => jsGo pg seen rest
    | some raw =>
      let title := clean_text raw
      if title = [] ∨ title.length < 15 ∨ pyLower title ∈ seen then jsGo pg seen rest
      else
        let seen' := pyLower title :: seen
        let link := normalizeLink (chosenHref e) pg.url
        let summary := match e.paraTexts.head? with | some p => clean_text p | none => []
        match is_valid_article title summary link with
        | none => none
        | some true =>
          match jsGo pg seen' rest with
          | none => none
          | some tail =>
            some ({ title := title, link := link, summary := summary.take 400,
                    date := e.dateText,
                    category := extract_category pg.metaCategory
                      (if link ≠ [] then link else pg.url),
                    source := pg.url, scraped_at := pg.now } :: tail)
        | some false => jsGo pg seen' rest

/-- `scrape_js(url)` on a rendered page. -/
def scrape_js (pg : StaticPage) : List Article :=
  (jsGo pg [] pg.articles).getD []

/-- One candidate element of `crawl_pages`, flattened along the queries of
lines 410-443: its tag kind, own text, the text of
`elem.find(["h2","h3","a"])`, its own `href`, the href of
`elem.find("a", href=True)`, the texts of `elem.find_next("p")` and
`elem.find("p")`, and its extracted date. -/
structure CrawlElem where
  isA : Bool
  isH23 : Bool
  ownText : Str
  childTitleText : Option Str
  ownHref : Option Str
  childAHref : Option Str
  nextPText : Option Str
  ownPText : Option Str
  dateText : Str
deriving DecidableEq

/-- One successfully fetched listing page of `crawl_pages`: its URL, its
category metadata, and for each of the nine selectors its matches. -/
structure CrawlPage where
  pageUrl : Str
  metaCategory : Option Str
  selectorElems : List (List CrawlElem)
deriving DecidableEq

/-- Lines 410-415: the title of a crawl candidate: the element's own text
for `h2`/`h3` elements, else the text of `elem.find(["h2","h3","a"])`,
falling back to the element itself; cleaned. -/
def crawlTitle (e : CrawlElem) : Str :=
  clean_text (if e.isH23 then e.ownText else e.childTitleText.getD e.ownText)

/-- Lines 423-431: the link of a crawl candidate. -/
def crawlLink (pu : Str) (e : CrawlElem) : Str :=
  normalizeLink (if e.isA then e.ownHref else e.childAHref) pu

/-- Lines 433-437: the summary of a crawl candidate:
`elem.find_next("p") or elem.find("p")`, cleaned. -/
def crawlSummary (e : CrawlElem) : Str :=
  match e.nextPText with
  | some t => clean_text t
  | none => match e.ownPText with | some t => clean_text t | none => []

/-- Lines 447-455: the record assembled for a valid crawl candidate. -/
def mkCrawlArticle (pu : Str) (mc : Option Str) (now : Str) (e : CrawlElem) : Article :=
  { title := crawlTitle e, link := crawlLink pu e,
    summary := (crawlSummary e).take 400,
    date := e.dateText,
    category := extract_category mc (if crawlLink pu e ≠ [] then crawlLink pu e else pu),
    source := pu, scraped_at := now }

/-- Lines 409-455: process the elements one selector matched.  Returns the
emitted records, the updated seen set, and whether processing survived
(false models the exception at the `title_lower[0]` crash point, which
aborts the rest of the page). -/
def crawlElemsGo (pu : Str) (mc : Option Str) (now : Str) (seen : List Str) :
    List CrawlElem → List Article × List Str × Bool
  | [] => ([], seen, true)
  | e :: rest =>
    if crawlTitle e = [] ∨ (crawlTitle e).length < 15 ∨ pyLower (crawlTitle e) ∈ seen then
      crawlElemsGo pu mc now seen rest
    else
      match is_valid_article (crawlTitle e) (crawlSummary e) (crawlLink pu e) with
      | none => ([], pyLower (crawlTitle e) :: seen, false)
      | some true =>
        let res := crawlElemsGo pu mc now (pyLower (crawlTitle e) :: seen) rest
        (mkCrawlArticle pu mc now e :: res.1, res.2.1, res.2.2)
      | some false => crawlElemsGo pu mc now (pyLower (crawlTitle e) :: seen) rest

/-- Lines 407-455: iterate the selectors of one page, stopping at an
exception but keeping what was already collected. -/
def crawlSelsGo (pu : Str) (mc : Option Str) (now : Str) (seen : List Str) :
    List (List CrawlElem) → List Article × List Str × Bool
  | [] => ([], seen, true)
  | es :: rest =>
    let r := crawlElemsGo pu mc now seen es
    if r.2.2 then
      let r2 := crawlSelsGo pu mc now r.2.1 rest
      (r.1 ++ r2.1, r2.2.1, r2.2.2)
    else (r.1, r.2.1, false)

/-- Lines 389-463: iterate the fetched pages; a page aborted by an
exception contributes what it collected and the crawl continues. -/
def crawlPagesGo (now : Str) (seen : List Str) : List CrawlPage → List Article × List Str
  | [] => ([], seen)
  | p :: rest =>
    let r := crawlSelsGo p.pageUrl p.metaCategory now seen p.selectorElems
    let r2 := crawlPagesGo now r.2.1 rest
    (r.1 ++ r2.1, r2.2)

/-- `crawl_pages(url, pages)` on the successfully fetched pages. -/
def crawl_pages (pages : List CrawlPage) (now : Str) : List Article :=
  (crawlPagesGo now [] pages).1

/-! ### Concrete inputs used by the examples and witnesses -/

/-- A table with header row `["A","B"]` in a `thead` and one body row
`["1","2"]` in a `tbody`. -/
def demoTable : TableNode :=
  { captionText := none, hasThead := true, hasTbody := true,
    trs := [{ loc := RowLoc.inHead, cells := [(true, "A".toList), (true, "B".toList)] },
            { loc := RowLoc.inBody, cells := [(false, "1".toList), (false, "2".toList)] }] }

/-- A table whose header row repeats the header text `A`. -/
def demoDupTable : TableNode :=
  { captionText := none, hasThead := true, hasTbody := true,
    trs := [{ loc := RowLoc.inHead, cells := [(true, "A".toList), (true, "A".toList)] },
            { loc := RowLoc.inBody, cells := [(false, "1".toList), (false, "2".toList)] }] }

/-- A same-host relative anchor. -/
def anchorDemo : Anchor :=
  { href := "/news/all-details".toList, text := "Read the full story".toList }

/-- The record the Link Classifier emits for `anchorDemo` on base
`https://h.example/p`. -/
def linkDemo : LinkRec :=
  { text := "Read the full story".toList,
    url := "https://h.example/news/all-details".toList,
    type := "internal".toList }

/-- The dedup key a static article element registers in `seen_titles`:
`some` of its lowercased cleaned title when the element has a title tag
with nonempty cleaned text, else `none`. -/
def staticKey (e : StaticArticleElem) : Option Str :=
  match e.titleText with
  | none => none
  | some raw =>
    if clean_text raw = [] then none else some (pyLower (clean_text raw))

/-- The dedup key a heading element registers in `scrape_headlines`'
`seen_titles` (the length filter runs before registration there). -/
def headKey (h : HeadlineElem) : Option Str :=
  if clean_text h.text = [] ∨ (clean_text h.text).length < 15 then none
  else some (pyLower (clean_text h.text))

/-- A 401-character summary candidate. -/
def aStr : Str := List.replicate 401 'a'

/-- A 405-character summary candidate, offered after `aStr`. -/
def bStr : Str := List.replicate 405 'b'

/-- An article element whose summary selectors offer a 401-character and
then a 405-character candidate. -/
def demoSummaryElem : StaticArticleElem :=
  { titleText := some ("Markets rally on strong earnings data today".toList),
    aInTitle := none,
    articleAHref := some ("https://demo.example/story-1".toList),
    selectorTexts := [[aStr], [bStr]],
    paraTexts := [],
    dateText := "2024-03-10".toList }

/-- A static page holding `demoSummaryElem`. -/
def demoSummaryPage : StaticPage :=
  { url := "https://demo.example/markets/page".toList,
    metaCategory := none,
    now := "2024-06-01T12:00:00".toList,
    articles := [demoSummaryElem] }

/-- The record `scrape_static_article` emits for `demoSummaryPage`: the
longest (405-character) candidate won the selection and was truncated to
400 characters at assembly. -/
def demoSummaryRec : Article :=
  { title := "Markets rally on strong earnings data today".toList,
    link := "https://demo.example/story-1".toList,
    summary := List.replicate 400 'b',
    date := "2024-03-10".toList,
    category := [],
    source := "https://demo.example/markets/page".toList,
    scraped_at := "2024-06-01T12:00:00".toList }

/-- A small valid static article element (link present, no summary). -/
def c10Elem : StaticArticleElem :=
  { titleText := some ("Sensex ends higher today, gains broad".toList),
    aInTitle := none,
    articleAHref := some ("https://w.example/a".toList),
    selectorTexts := [], paraTexts := [], dateText := [] }

/-- A static page holding `c10Elem`. -/
def c10Page : StaticPage :=
  { url := "https://w.example/news/page".toList, metaCategory := none,
    now := "t0".toList, articles := [c10Elem] }

/-- The record `scrape_static_article` emits for `c10Page`. -/
def c10Rec : Article :=
  { title := "Sensex ends higher today, gains broad".toList,
    link := "https://w.example/a".toList,
    summary := [], date := [], category := [],
    source := "https://w.example/news/page".toList, scraped_at := "t0".toList }

/-- A record as `scrape_static_article` could emit it. -/
def artA : Article :=
  { title := "Markets rally on strong earnings".toList,
    link := "https://a.example/markets/rally-1".toList,
    summary := "Benchmark indices climbed for a third session on broad gains.".toList,
    date := "2024-03-10".toList, category := "Markets".toList,
    source := "https://a.example/markets".toList, scraped_at := "t1".toList }

/-- The same headline rediscovered by another strategy on another site. -/
def artB : Article :=
  { title := "Markets rally on strong earnings".toList,
    link := "https://b.example/story/2".toList,
    summary := "A different strategy captured the same story elsewhere.".toList,
    date := "2024-03-11".toList, category := "Business".toList,
    source := "https://b.example/news".toList, scraped_at := "t2".toList }

/-! ### Normal-form predicates for the idempotence proofs -/

/-- Every whitespace character of `t` is a plain space. -/
def SpacesOK (t : Str) : Prop := ∀ c ∈ t, pyIsSpaceChar c = true → c = ' '

/-- `t` has no two adjacent plain spaces. -/
def NoDbl (t : Str) : Prop := ¬ ([' ', ' '] <:+: t)

/-- `t` does not start with whitespace. -/
def NoLead (t : Str) : Prop := ∀ c, t.head? = some c → pyIsSpaceChar c = false

/-- `t` does not end with whitespace. -/
def NoTrail (t : Str) : Prop := ∀ c, t.getLast? = some c → pyIsSpaceChar c = false

/-- The fixed point of the news normalizer: single plain spaces, neither
leading nor trailing, no mis-encoded rupee sequence, no non-breaking
space, no right single quotation mark. -/
def CleanNF (t : Str) : Prop :=
  SpacesOK t ∧ NoDbl t ∧ NoLead t ∧ NoTrail t ∧
    ¬ (RUPEE_BAD <:+: t) ∧ '\xa0' ∉ t ∧ '’' ∉ t

/-! ## Theorems -/

/-! ### Idempotence of the text normalizers (C5): basic lemmas -/

/-- Heads of nonempty prefixes agree. -/
theorem head?_of_isPrefix {x y : Str} (h : x <+: y) {c : Char} (hc : x.head? = some c) :
    y.head? = some c := by
  obtain ⟨t, rfl⟩ := h
  cases x with
  | nil => cases hc
  | cons a as => simpa using hc

/-- The head of a `dropWhile` result falsifies the predicate. -/
theorem head?_dropWhile_false (p : Char → Bool) (l : Str) {c : Char}
    (h : (l.dropWhile p).head? = some c) : p c = false := by
  have hh := List.head?_dropWhile_not p l
  rw [h] at hh
  exact hh

/-- `pyStrip t` is a prefix of the leading-whitespace-free part of `t`. -/
theorem pyStrip_isPref (t : Str) : pyStrip t <+: t.dropWhile pyIsSpaceChar := by
  unfold pyStrip
  have h1 : ((t.dropWhile pyIsSpaceChar).reverse.dropWhile pyIsSpaceChar) <:+
      (t.dropWhile pyIsSpaceChar).reverse := List.dropWhile_suffix _
  have h2 := List.reverse_prefix.mpr h1
  rwa [List.reverse_reverse] at h2

/-- `pyStrip t` sits inside `t`. -/
theorem pyStrip_infix (t : Str) : pyStrip t <:+: t :=
  List.infix_iff_prefix_suffix.mpr
    ⟨t.dropWhile pyIsSpaceChar, pyStrip_isPref t, List.dropWhile_suffix _⟩

/-- `pyStrip` leaves no leading whitespace. -/
theorem pyStrip_noLead (t : Str) : NoLead (pyStrip t) := by
  intro c hc
  exact head?_dropWhile_false _ _ (head?_of_isPrefix (pyStrip_isPref t) hc)

/-- `pyStrip` leaves no trailing whitespace. -/
theorem pyStrip_noTrail (t : Str) : NoTrail (pyStrip t) := by
  intro c hc
  unfold pyStrip at hc
  rw [List.getLast?_reverse] at hc
  exact head?_dropWhile_false _ _ hc

/-- Without leading or trailing whitespace, `pyStrip` does nothing. -/
theorem pyStrip_id {t : Str} (h1 : NoLead t) (h2 : NoTrail t) : pyStrip t = t := by
  unfold pyStrip
  have hd : t.dropWhile pyIsSpaceChar = t := by
    cases t with
    | nil => simp
    | cons c cs =>
      have hc := h1 c rfl
      rw [List.dropWhile_cons_of_neg (by simp [hc])]
  rw [hd]
  have hr : t.reverse.dropWhile pyIsSpaceChar = t.reverse := by
    rcases ht : t.reverse with - | ⟨c, cs⟩
    · simp
    · have hc : t.getLast? = some c := by
        rw [← List.head?_reverse, ht]
        rfl
      have hc2 := h2 c hc
      rw [List.dropWhile_cons_of_neg (by simp [hc2])]
  rw [hr, List.reverse_reverse]

/-- `SpacesOK` restricts to infixes. -/
theorem spacesOK_of_infix {x y : Str} (h : x <:+: y) (hy : SpacesOK y) : SpacesOK x :=
  fun c hc hs => hy c (List.IsInfix.mem hc h) hs

/-- `NoDbl` restricts to infixes. -/
theorem noDbl_of_infix {x y : Str} (h : x <:+: y) (hy : NoDbl y) : NoDbl x :=
  fun hocc => hy (hocc.trans h)

/-- Non-membership restricts to infixes. -/
theorem notMem_of_infix {x y : Str} (h : x <:+: y) {c : Char} (hy : c ∉ y) : c ∉ x :=
  fun hc => hy (List.IsInfix.mem hc h)

/-- Pattern freedom restricts to infixes. -/
theorem notInfix_of_infix {p x y : Str} (h : x <:+: y) (hy : ¬ p <:+: y) : ¬ p <:+: x :=
  fun hp => hy (hp.trans h)

/-- A two-character infix of an append sits in a part or on the seam. -/
theorem pair_infix_append {a b : Char} {x y : Str} (h : [a, b] <:+: x ++ y) :
    [a, b] <:+: x ∨ [a, b] <:+: y ∨ (x.getLast? = some a ∧ y.head? = some b) := by
  induction x with
  | nil =>
    right; left
    simpa using h
  | cons c x' ih =>
    rw [List.cons_append] at h
    rcases List.infix_cons_iff.mp h with hpre | hinf
    · obtain ⟨t, ht⟩ := hpre
      rw [List.cons_append, List.cons_append, List.nil_append] at ht
      obtain ⟨h1, h2⟩ := List.cons.inj ht
      cases x' with
      | nil =>
        right; right
        constructor
        · rw [h1]; rfl
        · rw [List.nil_append] at h2
          rw [← h2]; rfl
      | cons d x'' =>
        left
        rw [List.cons_append] at h2
        obtain ⟨h3, -⟩ := List.cons.inj h2
        rw [h1, h3]
        exact List.infix_cons_iff.mpr (Or.inl ⟨x'' , by simp⟩)
    · rcases ih hinf with h1 | h2 | h3
      · exact Or.inl (List.infix_cons_iff.mpr (Or.inr h1))
      · exact Or.inr (Or.inl h2)
      · right; right
        refine ⟨?_, h3.2⟩
        have hne : x' ≠ [] := by
          intro he
          rw [he] at h3
          cases h3.1
        rcases x' with - | ⟨d, x''⟩
        · exact absurd rfl hne
        · rw [List.getLast?_cons_cons]
          exact h3.1

/-- The body-row loop of `processTable` skips cell-less rows and
materialises every other row against the headers. -/
theorem processTable_rows_eq (hs : List Str) (rs : List TRow) :
    rs.foldr
      (fun r acc =>
        if r.cells = [] then acc
        else materialise hs (r.cells.map (fun c => detail_clean_text c.2)) :: acc) [] =
      (rs.filter (fun r => r.cells ≠ [])).map
        (fun r => materialise hs (r.cells.map (fun c => detail_clean_text c.2))) := by
  induction rs with
  | nil => rfl
  | cons r rest ih =>
    by_cases h : r.cells = []
    · simp [h, ih]
    · simp [h, ih]

/-- C2: in `extract_structured_tables`, a body row with as many cells as
there are headers is materialised as the insertion-ordered mapping
`dict(zip(headers, cells))` (duplicate header text: last value wins), any
other row as the plain cell list; a table is emitted only when its headers
or rows are nonempty; and the header row `["A","B"]` with body row
`["1","2"]` yields exactly `rows == [{"A": "1", "B": "2"}]`. -/
theorem c2_table_extractor :
    (∀ t : TableNode,
      (processTable t).rows =
        (((bodySource t).drop (startIdx t)).filter (fun r => r.cells ≠ [])).map
          (fun r =>
            if tableHeaders t ≠ [] ∧ r.cells.length = (tableHeaders t).length then
              OutRow.dict (pyDict ((tableHeaders t).zip (r.cells.map (fun c => detail_clean_text c.2))))
            else OutRow.plain (r.cells.map (fun c => detail_clean_text c.2)))) ∧
    (∀ ts : List TableNode, ∀ td ∈ extract_structured_tables ts,
      td.headers ≠ [] ∨ td.rows ≠ []) ∧
    extract_structured_tables [demoTable] =
      [{ caption := [], headers := ["A".toList, "B".toList],
         rows := [OutRow.dict [("A".toList, "1".toList), ("B".toList, "2".toList)]] }] ∧
    (processTable demoDupTable).rows = [OutRow.dict [("A".toList, "2".toList)]] := by
  refine ⟨fun t => ?_, fun ts td htd => ?_, by decide, by decide⟩
  · show ((bodySource t).drop (startIdx t)).foldr _ [] = _
    rw [processTable_rows_eq]
    apply List.map_congr_left
    intro r hr
    unfold materialise
    by_cases h : tableHeaders t ≠ [] ∧
        (r.cells.map (fun c => detail_clean_text c.2)).length = (tableHeaders t).length
    · rw [if_pos h, if_pos]
      simpa using h
    · rw [if_neg h, if_neg]
      simpa using h
  · have := List.of_mem_filter htd
    exact (by simpa using this : ¬ td.rows = [] ∨ ¬ td.headers = []).symm

/-- C2 witness: the emission guard instantiated at the demo table. -/
theorem c2_table_extractor_witness :
    ({ caption := [], headers := ["A".toList, "B".toList],
       rows := [OutRow.dict [("A".toList, "1".toList), ("B".toList, "2".toList)]] } :
      TableRec).headers ≠ [] ∨
    ({ caption := [], headers := ["A".toList, "B".toList],
       rows := [OutRow.dict [("A".toList, "1".toList), ("B".toList, "2".toList)]] } :
      TableRec).rows ≠ [] :=
  c2_table_extractor.2.1 [demoTable] _ (by decide)

/-- Every section `sectionsGo` emits has nonempty content: sections are
committed only after the nonemptiness test, and the open section's content
only grows. -/
theorem sectionsGo_content_ne :
    ∀ (es : List PageElem) (cur : Option Sec), ∀ s ∈ sectionsGo cur es, s.content ≠ [] := by
  intro es
  induction es with
  | nil =>
    intro cur s hs
    match cur with
    | none => simp [sectionsGo] at hs
    | some c =>
      simp only [sectionsGo] at hs
      split at hs
      · rename_i h
        rw [List.mem_singleton] at hs
        subst hs
        exact h
      · simp at hs
  | cons e rest ih =>
    intro cur s hs
    match e, cur with
    | PageElem.heading lv tx, none =>
      simp only [sectionsGo, List.nil_append] at hs
      exact ih _ s hs
    | PageElem.heading lv tx, some c =>
      simp only [sectionsGo] at hs
      rw [List.mem_append] at hs
      rcases hs with hs | hs
      · split at hs
        · rename_i h
          rw [List.mem_singleton] at hs
          subst hs
          exact h
        · simp at hs
      · exact ih _ s hs
    | PageElem.block tx, none =>
      simp only [sectionsGo] at hs
      exact ih _ s hs
    | PageElem.block tx, some c =>
      simp only [sectionsGo] at hs
      split at hs
      · exact ih _ s hs
      · exact ih _ s hs

/-- C3: the Section Builder never emits a section with empty content — a
heading whose buffer collects nothing before the next heading or the end
of the traversal is dropped — and on `[h2 "X", h2 "Y", p <qualifying>]` it
yields exactly one section, headed `"Y"`. -/
theorem c3_section_builder :
    (∀ es : List PageElem, ∀ s ∈ extract_content_sections es, s.content ≠ []) ∧
    extract_content_sections
      [PageElem.heading 2 ("X".toList), PageElem.heading 2 ("Y".toList),
       PageElem.block ("Allotment status and listing timeline details".toList)] =
      [{ heading := "Y".toList, level := 2,
         content := ["Allotment status and listing timeline details".toList] }] :=
  ⟨fun es => sectionsGo_content_ne es none, by decide⟩

/-- C3 witness: the invariant instantiated at the example traversal. -/
theorem c3_section_builder_witness :
    ({ heading := "Y".toList, level := 2,
       content := ["Allotment status and listing timeline details".toList] } : Sec).content ≠ [] :=
  c3_section_builder.1
    [PageElem.heading 2 ("X".toList), PageElem.heading 2 ("Y".toList),
     PageElem.block ("Allotment status and listing timeline details".toList)] _ (by decide)

/-- Every record `linksGo` emits is classified `"internal"` exactly when
its resolved host equals the base host, and stems from a kept anchor whose
destination does not contain `javascript:`. -/
theorem linksGo_spec (base : Str) :
    ∀ (anchors : List Anchor) (seen : List Str) (r : LinkRec),
      r ∈ linksGo base seen anchors →
      ((r.type = "internal".toList ↔ (urlsplitM r.url).netloc = (urlsplitM base).netloc) ∧
        ∃ a, a ∈ anchors ∧ r.url = urljoinM base a.href ∧
          subB ("javascript:".toList) (pyLower a.href) = false) := by
  intro anchors
  induction anchors with
  | nil =>
    intro seen r hr
    simp [linksGo] at hr
  | cons a rest ih =>
    intro seen r hr
    simp only [linksGo] at hr
    split at hr
    · obtain ⟨hiff, a2, ha2, hrest⟩ := ih seen r hr
      exact ⟨hiff, a2, List.mem_cons_of_mem _ ha2, hrest⟩
    · rename_i h1
      split at hr
      · obtain ⟨hiff, a2, ha2, hrest⟩ := ih _ r hr
        exact ⟨hiff, a2, List.mem_cons_of_mem _ ha2, hrest⟩
      · split at hr
        · obtain ⟨hiff, a2, ha2, hrest⟩ := ih _ r hr
          exact ⟨hiff, a2, List.mem_cons_of_mem _ ha2, hrest⟩
        · rcases List.mem_cons.mp hr with hr | hr
          · subst hr
            push_neg at h1
            have hjs : subB ("javascript:".toList) (pyLower a.href) = false := by
              have hfalse : (SKIP_PATTERNS.any fun p => subB p (pyLower a.href)) = false := by
                simpa using h1.2
              have := List.any_eq_false.mp hfalse ("javascript:".toList) (by decide)
              simpa using this
            refine ⟨?_, a, List.mem_cons_self a rest, rfl, hjs⟩
            by_cases hn : (urlsplitM (urljoinM base a.href)).netloc = (urlsplitM base).netloc
            · simp [hn]
            · simp only [hn]
              have hne : ("external".toList : Str) ≠ "internal".toList := by decide
              simp [hn, hne]
          · obtain ⟨hiff, a2, ha2, hrest⟩ := ih _ r hr
            exact ⟨hiff, a2, List.mem_cons_of_mem _ ha2, hrest⟩

/-- C6: for every record the Link Classifier keeps, the type is
`"internal"` iff the host of the resolved absolute URL equals the host of
the base URL (else `"external"`), and no anchor whose destination carries
a `javascript:` scheme ever reaches the output (such an href contains the
skipped substring `javascript:`). -/
theorem c6_link_classifier :
    ∀ (anchors : List Anchor) (base : Str) (r : LinkRec),
      r ∈ extract_meaningful_links anchors base →
      ((r.type = "internal".toList ↔ (urlsplitM r.url).netloc = (urlsplitM base).netloc) ∧
        ∃ a, a ∈ anchors ∧ r.url = urljoinM base a.href ∧
          subB ("javascript:".toList) (pyLower a.href) = false) :=
  fun anchors base r hr => linksGo_spec base anchors [] r hr

/-- C6 witness: the classification instantiated on a same-host relative
anchor. -/
theorem c6_link_classifier_witness :
    ((linkDemo.type = "internal".toList ↔
      (urlsplitM linkDemo.url).netloc = (urlsplitM ("https://h.example/p".toList)).netloc) ∧
      ∃ a, a ∈ [anchorDemo] ∧
        linkDemo.url = urljoinM ("https://h.example/p".toList) a.href ∧
        subB ("javascript:".toList) (pyLower a.href) = false) :=
  c6_link_classifier [anchorDemo] ("https://h.example/p".toList) linkDemo (by decide)

/-- A key already in the seen set never reappears in the deduplicated
output. -/
theorem dedupeByTitle_filter_seen :
    ∀ (arts : List Article) (seen : List Str) (k : Str), k ∈ seen →
      (dedupeByTitle seen arts).filter (fun a => akey a = k) = [] := by
  intro arts
  induction arts with
  | nil => intro seen k _; rfl
  | cons a rest ih =>
    intro seen k hk
    rw [dedupeByTitle]
    by_cases h : akey a ≠ [] ∧ akey a ∉ seen
    · rw [if_pos h]
      have hne : ¬ (akey a = k) := fun he => h.2 (he ▸ hk)
      rw [List.filter_cons, if_neg (by simp [hne])]
      exact ih (akey a :: seen) k (List.mem_cons_of_mem _ hk)
    · rw [if_neg h]
      exact ih seen k hk

/-- First-seen-wins: with a fresh nonempty key, the deduplicated output
keeps exactly the first input record with that key. -/
theorem dedupeByTitle_filter_first :
    ∀ (arts : List Article) (seen : List Str) (k : Str), k ≠ [] → k ∉ seen →
      (dedupeByTitle seen arts).filter (fun a => akey a = k) =
        (arts.filter (fun a => akey a = k)).take 1 := by
  intro arts
  induction arts with
  | nil => intro seen k _ _; rfl
  | cons a rest ih =>
    intro seen k hk hs
    by_cases hak : akey a = k
    · have hg : akey a ≠ [] ∧ akey a ∉ seen := by rw [hak]; exact ⟨hk, hs⟩
      rw [dedupeByTitle, if_pos hg]
      have hseen : k ∈ akey a :: seen := by rw [hak]; exact List.mem_cons_self _ _
      rw [List.filter_cons, if_pos (by simp [hak]), List.filter_cons, if_pos (by simp [hak])]
      rw [dedupeByTitle_filter_seen rest (akey a :: seen) k hseen]
      simp
    · by_cases hg : akey a ≠ [] ∧ akey a ∉ seen
      · rw [dedupeByTitle, if_pos hg]
        have hs2 : k ∉ akey a :: seen := by
          intro hmem
          rcases List.mem_cons.mp hmem with he | he
          · exact hak he.symm
          · exact hs he
        rw [List.filter_cons, if_neg (by simp [hak]), List.filter_cons, if_neg (by simp [hak])]
        exact ih (akey a :: seen) k hk hs2
      · have hak2 : ¬ (akey a = k) := fun he => hg (by rw [he]; exact ⟨hk, hs⟩)
        rw [dedupeByTitle, if_neg hg, List.filter_cons, if_neg (by simp [hak2])]
        exact ih seen k hk hs

/-- C7: in the Aggregator's merge step, any two input records sharing a
(nonempty) normalized-lowercased title key yield exactly one output record
with that key, namely the first-seen input record for the key; later
duplicates are dropped. -/
theorem c7_aggregator_dedup :
    ∀ (arts : List Article) (r : Article), r ∈ arts → akey r ≠ [] →
      ((merge_step arts).filter (fun a => akey a = akey r) =
          (arts.filter (fun a => akey a = akey r)).take 1 ∧
        ((merge_step arts).filter (fun a => akey a = akey r)).length = 1) := by
  intro arts r hr hk
  have h : (merge_step arts).filter (fun a => akey a = akey r) =
      (arts.filter (fun a => akey a = akey r)).take 1 :=
    dedupeByTitle_filter_first arts [] (akey r) hk (by simp)
  refine ⟨h, ?_⟩
  rw [h]
  have hmem : r ∈ arts.filter (fun a => akey a = akey r) :=
    List.mem_filter.mpr ⟨hr, by simp⟩
  rcases hf : arts.filter (fun a => akey a = akey r) with - | ⟨x, xs⟩
  · rw [hf] at hmem
    cases hmem
  · rfl

/-- C7 witness: two records with the same title from different strategies
and sites merge into exactly one. -/
theorem c7_aggregator_dedup_witness :
    ((merge_step [artA, artB]).filter (fun a => akey a = akey artA) =
        ([artA, artB].filter (fun a => akey a = akey artA)).take 1 ∧
      ((merge_step [artA, artB]).filter (fun a => akey a = akey artA)).length = 1) :=
  c7_aggregator_dedup [artA, artB] artA (by decide) (by decide)

/-- C8 counterexample: the claim says that with no metadata the Category
Extractor takes the first non-empty path segment — so
`https://example.com/business` should yield `"Business"` — but the code
additionally requires at least two path segments (`len(path_parts) > 1`)
and returns the empty string here although the URL yields a segment. -/
theorem c8_category_counterexample :
    extract_category none ("https://example.com/business".toList) = [] ∧
    extract_category none ("https://example.com/business".toList) ≠ "Business".toList := by
  exact ⟨by decide, by decide⟩

/-- C8 amended: nonempty metadata content is returned directly; with no
(or empty) metadata content and a nonempty URL the extractor splits the
slash-stripped URL path and, only when that yields more than one segment,
returns the first segment with hyphens replaced by spaces and title-cased;
in every other case it returns the empty string. -/
theorem c8_category_amended :
    (∀ (c url : Str), c ≠ [] → extract_category (some c) url = c) ∧
    (∀ (mc : Option Str) (url : Str), mc.getD [] = [] → url ≠ [] →
      (pySplitOn '/' (pyStripChar '/' (urlsplitM url).path)).length > 1 →
      extract_category mc url =
        pyTitle (pyReplaceChar '-' ' '
          ((pySplitOn '/' (pyStripChar '/' (urlsplitM url).path)).headD []))) ∧
    (∀ (mc : Option Str) (url : Str), mc.getD [] = [] →
      (url = [] ∨ (pySplitOn '/' (pyStripChar '/' (urlsplitM url).path)).length ≤ 1) →
      extract_category mc url = []) := by
  refine ⟨fun c url hc => ?_, fun mc url h1 h2 h3 => ?_, fun mc url h1 h2 => ?_⟩
  · simp [extract_category, hc]
  · simp [extract_category, h1, h2, h3]
  · rcases h2 with h2 | h2
    · simp [extract_category, h1, h2]
    · have h3 : ¬ (pySplitOn '/' (pyStripChar '/' (urlsplitM url).path)).length > 1 := by omega
      simp [extract_category, h1, h3]

/-- C8 witness: the amended URL branch instantiated at a two-segment
path. -/
theorem c8_category_amended_witness :
    extract_category none ("https://example.com/market-news/stocks".toList) =
      pyTitle (pyReplaceChar '-' ' '
        ((pySplitOn '/'
          (pyStripChar '/' (urlsplitM ("https://example.com/market-news/stocks".toList)).path)).headD [])) :=
  c8_category_amended.2.1 none ("https://example.com/market-news/stocks".toList)
    (by decide) (by decide) (by decide)

/-- Every record the static-article loop emits has a summary of at most
400 characters (the `[:400]` slice at record assembly). -/
theorem staticGo_summary_le :
    ∀ (es : List StaticArticleElem) (pg : StaticPage) (seen : List Str) (l : List Article),
      staticGo pg seen es = some l → ∀ r ∈ l, r.summary.length ≤ 400 := by
  intro es
  induction es with
  | nil =>
    intro pg seen l hl r hr
    simp only [staticGo, Option.some.injEq] at hl
    subst hl
    cases hr
  | cons e rest ih =>
    intro pg seen l hl r hr
    simp only [staticGo] at hl
    rcases ht : e.titleText with - | raw
    · rw [ht] at hl
      exact ih pg seen l hl r hr
    · rw [ht] at hl
      simp only at hl
      split at hl
      · exact ih pg seen l hl r hr
      · split at hl
        · cases hl
        · split at hl
          · cases hl
          · rename_i tail htail
            rw [Option.some.injEq] at hl
            subst hl
            rcases List.mem_cons.mp hr with hr | hr
            · subst hr
              simp only [mkStaticArticle]
              exact List.length_take_le 400 _
            · exact ih pg _ tail htail r hr
        · exact ih pg _ l hl r hr

/-- Every record the headline loop emits has a summary of at most 400
characters. -/
theorem headGo_summary_le :
    ∀ (hs : List HeadlineElem) (pg : HeadlinePage) (seen : List Str) (l : List Article),
      headGo pg seen hs = some l → ∀ r ∈ l, r.summary.length ≤ 400 := by
  intro hs
  induction hs with
  | nil =>
    intro pg seen l hl r hr
    simp only [headGo, Option.some.injEq] at hl
    subst hl
    cases hr
  | cons h rest ih =>
    intro pg seen l hl r hr
    simp only [headGo] at hl
    split at hl
    · exact ih pg seen l hl r hr
    · split at hl
      · cases hl
      · split at hl
        · cases hl
        · rename_i tail htail
          rw [Option.some.injEq] at hl
          subst hl
          rcases List.mem_cons.mp hr with hr | hr
          · subst hr
            simp only [mkHeadArticle]
            exact List.length_take_le 400 _
          · exact ih pg _ tail htail r hr
      · exact ih pg _ l hl r hr

/-- Every record the JS loop emits has a summary of at most 400
characters. -/
theorem jsGo_summary_le :
    ∀ (es : List StaticArticleElem) (pg : StaticPage) (seen : List Str) (l : List Article),
      jsGo pg seen es = some l → ∀ r ∈ l, r.summary.length ≤ 400 := by
  intro es
  induction es with
  | nil =>
    intro pg seen l hl r hr
    simp only [jsGo, Option.some.injEq] at hl
    subst hl
    cases hr
  | cons e rest ih =>
    intro pg seen l hl r hr
    simp only [jsGo] at hl
    rcases ht : e.titleText with - | raw
    · rw [ht] at hl
      exact ih pg seen l hl r hr
    · rw [ht] at hl
      simp only at hl
      split at hl
      · exact ih pg seen l hl r hr
      · split at hl
        · cases hl
        · split at hl
          · cases hl
          · rename_i tail htail
            rw [Option.some.injEq] at hl
            subst hl
            rcases List.mem_cons.mp hr with hr | hr
            · subst hr
              exact List.length_take_le 400 _
            · exact ih pg _ tail htail r hr
        · exact ih pg _ l hl r hr

/-- Every record the crawl loop emits for one selector's elements has a
summary of at most 400 characters. -/
theorem crawlElemsGo_summary_le :
    ∀ (es : List CrawlElem) (pu : Str) (mc : Option Str) (now : Str) (seen : List Str),
      ∀ r ∈ (crawlElemsGo pu mc now seen es).1, r.summary.length ≤ 400 := by
  intro es
  induction es with
  | nil =>
    intro pu mc now seen r hr
    cases hr
  | cons e rest ih =>
    intro pu mc now seen r hr
    simp only [crawlElemsGo] at hr
    split at hr
    · exact ih pu mc now seen r hr
    · split at hr
      · cases hr
      · rcases List.mem_cons.mp hr with hr | hr
        · subst hr
          simp only [mkCrawlArticle]
          exact List.length_take_le 400 _
        · exact ih pu mc now _ r hr
      · exact ih pu mc now _ r hr

/-- The per-page selector iteration preserves the summary bound. -/
theorem crawlSelsGo_summary_le :
    ∀ (ess : List (List CrawlElem)) (pu : Str) (mc : Option Str) (now : Str) (seen : List Str),
      ∀ r ∈ (crawlSelsGo pu mc now seen ess).1, r.summary.length ≤ 400 := by
  intro ess
  induction ess with
  | nil =>
    intro pu mc now seen r hr
    cases hr
  | cons es rest ih =>
    intro pu mc now seen r hr
    simp only [crawlSelsGo] at hr
    split at hr
    · rcases List.mem_append.mp hr with hr | hr
      · exact crawlElemsGo_summary_le es pu mc now seen r hr
      · exact ih pu mc now _ r hr
    · exact crawlElemsGo_summary_le es pu mc now seen r hr

/-- The page iteration preserves the summary bound. -/
theorem crawlPagesGo_summary_le :
    ∀ (ps : List CrawlPage) (now : Str) (seen : List Str),
      ∀ r ∈ (crawlPagesGo now seen ps).1, r.summary.length ≤ 400 := by
  intro ps
  induction ps with
  | nil =>
    intro now seen r hr
    cases hr
  | cons p rest ih =>
    intro now seen r hr
    simp only [crawlPagesGo] at hr
    rcases List.mem_append.mp hr with hr | hr
    · exact crawlSelsGo_summary_le p.selectorElems p.pageUrl p.metaCategory now seen r hr
    · exact ih now _ r hr

/-- C9: every article record any extraction strategy emits carries a
summary of at most 400 characters, and the truncation happens at record
assembly, after the Summary Selector picked the untruncated longest
qualifying candidate: offered a 401-character and then a 405-character
candidate, the static scraper emits the first 400 characters of the
405-character one (truncation before selection would instead keep the
tied-first 401-character candidate). -/
theorem c9_summary_truncation :
    (∀ (pg : StaticPage) (r : Article), r ∈ scrape_static_article pg →
      r.summary.length ≤ 400) ∧
    (∀ (pg : HeadlinePage) (r : Article), r ∈ scrape_headlines pg →
      r.summary.length ≤ 400) ∧
    (∀ (pg : StaticPage) (r : Article), r ∈ scrape_js pg → r.summary.length ≤ 400) ∧
    (∀ (ps : List CrawlPage) (now : Str) (r : Article), r ∈ crawl_pages ps now →
      r.summary.length ≤ 400) ∧
    scrape_static_article demoSummaryPage = [demoSummaryRec] ∧
    demoSummaryRec.summary = bStr.take 400 := by
  refine ⟨fun pg r hr => ?_, fun pg r hr => ?_, fun pg r hr => ?_,
    fun ps now r hr => ?_, by decide, by decide⟩
  · unfold scrape_static_article at hr
    rcases hgo : staticGo pg [] pg.articles with - | l
    · rw [hgo] at hr
      cases hr
    · rw [hgo] at hr
      exact staticGo_summary_le pg.articles pg [] l hgo r hr
  · unfold scrape_headlines at hr
    rcases hgo : headGo pg [] (pg.h1s ++ pg.h2s ++ pg.h3s ++ pg.h4s) with - | l
    · rw [hgo] at hr
      cases hr
    · rw [hgo] at hr
      exact headGo_summary_le _ pg [] l hgo r hr
  · unfold scrape_js at hr
    rcases hgo : jsGo pg [] pg.articles with - | l
    · rw [hgo] at hr
      cases hr
    · rw [hgo] at hr
      exact jsGo_summary_le pg.articles pg [] l hgo r hr
  · exact crawlPagesGo_summary_le ps now [] r hr

/-- C9 witness: the bound instantiated at the demo page's record. -/
theorem c9_summary_truncation_witness : demoSummaryRec.summary.length ≤ 400 :=
  c9_summary_truncation.1 demoSummaryPage demoSummaryRec (by decide)

/-- The assembled static record keeps the title it was built from. -/
theorem mkStaticArticle_title (pg : StaticPage) (e : StaticArticleElem) (t : Str) :
    (mkStaticArticle pg e t).title = t := rfl

/-- The assembled headline record keeps the title it was built from. -/
theorem mkHeadArticle_title (pg : HeadlinePage) (h : HeadlineElem) (t : Str) :
    (mkHeadArticle pg h t).title = t := rfl

/-- Invariant of the static loop: emitted records carry keys outside the
seen set, pairwise-distinct lowercased titles, and each record stems from
the first element in document order bearing its key. -/
theorem staticGo_inv :
    ∀ (es : List StaticArticleElem) (pg : StaticPage) (seen : List Str) (l : List Article),
      staticGo pg seen es = some l →
      ((∀ r ∈ l, pyLower r.title ∉ seen) ∧
        l.Pairwise (fun a b => pyLower a.title ≠ pyLower b.title) ∧
        (∀ r ∈ l, ∃ pre e post raw, es = pre ++ e :: post ∧ e.titleText = some raw ∧
          clean_text raw ≠ [] ∧ r = mkStaticArticle pg e (clean_text raw) ∧
          ∀ e2 ∈ pre, staticKey e2 ≠ some (pyLower (clean_text raw)))) := by
  intro es
  induction es with
  | nil =>
    intro pg seen l hl
    simp only [staticGo, Option.some.injEq] at hl
    subst hl
    exact ⟨fun r hr => absurd hr (List.not_mem_nil r), List.Pairwise.nil,
      fun r hr => absurd hr (List.not_mem_nil r)⟩
  | cons e rest ih =>
    intro pg seen l hl
    simp only [staticGo] at hl
    rcases ht : e.titleText with - | raw
    · rw [ht] at hl
      obtain ⟨hA, hB, hC⟩ := ih pg seen l hl
      refine ⟨hA, hB, fun r hr => ?_⟩
      obtain ⟨pre, e2, post, raw2, hdec, hte, hne2, hrec, hexcl⟩ := hC r hr
      refine ⟨e :: pre, e2, post, raw2, by rw [hdec]; rfl, hte, hne2, hrec, ?_⟩
      intro e3 he3
      rcases List.mem_cons.mp he3 with hhead | htail2
      · rw [hhead]
        simp [staticKey, ht]
      · exact hexcl e3 htail2
    · rw [ht] at hl
      simp only at hl
      split at hl
      · rename_i hskip
        obtain ⟨hA, hB, hC⟩ := ih pg seen l hl
        refine ⟨hA, hB, fun r hr => ?_⟩
        obtain ⟨pre, e2, post, raw2, hdec, hte, hne2, hrec, hexcl⟩ := hC r hr
        refine ⟨e :: pre, e2, post, raw2, by rw [hdec]; rfl, hte, hne2, hrec, ?_⟩
        intro e3 he3
        rcases List.mem_cons.mp he3 with hhead | htail2
        · rw [hhead]
          rcases hskip with hskip | hskip
          · simp [staticKey, ht, hskip]
          · simp only [staticKey, ht]
            by_cases hcl : clean_text raw = []
            · simp [hcl]
            · rw [if_neg hcl]
              intro hcontra
              rw [Option.some.injEq] at hcontra
              have hmem := hA r hr
              rw [hrec, mkStaticArticle_title] at hmem
              exact hmem (hcontra ▸ hskip)
        · exact hexcl e3 htail2
      · rename_i hg
        push_neg at hg
        obtain ⟨hne, hnotseen⟩ := hg
        split at hl
        · cases hl
        · split at hl
          · cases hl
          · rename_i tail htail
            rw [Option.some.injEq] at hl
            subst hl
            obtain ⟨hA, hB, hC⟩ := ih pg _ tail htail
            refine ⟨?_, ?_, ?_⟩
            · intro r hr
              rcases List.mem_cons.mp hr with hrh | hrt
              · rw [hrh, mkStaticArticle_title]
                exact hnotseen
              · intro hmem
                exact hA r hrt (List.mem_cons_of_mem _ hmem)
            · refine List.Pairwise.cons ?_ hB
              intro b hb
              rw [mkStaticArticle_title]
              intro heq
              exact hA b hb (by rw [← heq]; exact List.mem_cons_self _ _)
            · intro r hr
              rcases List.mem_cons.mp hr with hrh | hrt
              · exact ⟨[], e, rest, raw, rfl, ht, hne, hrh,
                  fun e3 he3 => absurd he3 (List.not_mem_nil _)⟩
              · obtain ⟨pre, e2, post, raw2, hdec, hte, hne2, hrec, hexcl⟩ := hC r hrt
                refine ⟨e :: pre, e2, post, raw2, by rw [hdec]; rfl, hte, hne2, hrec, ?_⟩
                intro e3 he3
                rcases List.mem_cons.mp he3 with hhead | htail2
                · rw [hhead]
                  simp only [staticKey, ht, if_neg hne]
                  intro hcontra
                  rw [Option.some.injEq] at hcontra
                  have hmem := hA r hrt
                  rw [hrec, mkStaticArticle_title] at hmem
                  exact hmem (by rw [← hcontra]; exact List.mem_cons_self _ _)
                · exact hexcl e3 htail2
        · obtain ⟨hA, hB, hC⟩ := ih pg _ l hl
          refine ⟨?_, hB, ?_⟩
          · intro r hr hmem
            exact hA r hr (List.mem_cons_of_mem _ hmem)
          · intro r hr
            obtain ⟨pre, e2, post, raw2, hdec, hte, hne2, hrec, hexcl⟩ := hC r hr
            refine ⟨e :: pre, e2, post, raw2, by rw [hdec]; rfl, hte, hne2, hrec, ?_⟩
            intro e3 he3
            rcases List.mem_cons.mp he3 with hhead | htail2
            · rw [hhead]
              simp only [staticKey, ht, if_neg hne]
              intro hcontra
              rw [Option.some.injEq] at hcontra
              have hmem := hA r hr
              rw [hrec, mkStaticArticle_title] at hmem
              exact hmem (by rw [← hcontra]; exact List.mem_cons_self _ _)
            · exact hexcl e3 htail2

/-- Invariant of the headline loop, as for the static loop. -/
theorem headGo_inv :
    ∀ (hs : List HeadlineElem) (pg : HeadlinePage) (seen : List Str) (l : List Article),
      headGo pg seen hs = some l →
      ((∀ r ∈ l, pyLower r.title ∉ seen) ∧
        l.Pairwise (fun a b => pyLower a.title ≠ pyLower b.title) ∧
        (∀ r ∈ l, ∃ pre h post, hs = pre ++ h :: post ∧
          clean_text h.text ≠ [] ∧ ¬ (clean_text h.text).length < 15 ∧
          r = mkHeadArticle pg h (clean_text h.text) ∧
          ∀ h2 ∈ pre, headKey h2 ≠ some (pyLower (clean_text h.text)))) := by
  intro hs
  induction hs with
  | nil =>
    intro pg seen l hl
    simp only [headGo, Option.some.injEq] at hl
    subst hl
    exact ⟨fun r hr => absurd hr (List.not_mem_nil r), List.Pairwise.nil,
      fun r hr => absurd hr (List.not_mem_nil r)⟩
  | cons h rest ih =>
    intro pg seen l hl
    simp only [headGo] at hl
    split at hl
    · rename_i hskip
      obtain ⟨hA, hB, hC⟩ := ih pg seen l hl
      refine ⟨hA, hB, fun r hr => ?_⟩
      obtain ⟨pre, h2, post, hdec, hne2, hlen2, hrec, hexcl⟩ := hC r hr
      refine ⟨h :: pre, h2, post, by rw [hdec]; rfl, hne2, hlen2, hrec, ?_⟩
      intro h3 he3
      rcases List.mem_cons.mp he3 with hhead | htail2
      · rw [hhead]
        rcases hskip with hskip | hskip | hskip
        · simp [headKey, hskip]
        · simp [headKey, hskip]
        · simp only [headKey]
          split
          · simp
          · intro hcontra
            rw [Option.some.injEq] at hcontra
            have hmem := hA r hr
            rw [hrec, mkHeadArticle_title] at hmem
            exact hmem (hcontra ▸ hskip)
      · exact hexcl h3 htail2
    · rename_i hg
      push_neg at hg
      obtain ⟨hne, hlen, hnotseen⟩ := hg
      have hlen2 : ¬ (clean_text h.text).length < 15 := by omega
      split at hl
      · cases hl
      · split at hl
        · cases hl
        · rename_i tail htail
          rw [Option.some.injEq] at hl
          subst hl
          obtain ⟨hA, hB, hC⟩ := ih pg _ tail htail
          refine ⟨?_, ?_, ?_⟩
          · intro r hr
            rcases List.mem_cons.mp hr with hrh | hrt
            · rw [hrh, mkHeadArticle_title]
              exact hnotseen
            · intro hmem
              exact hA r hrt (List.mem_cons_of_mem _ hmem)
          · refine List.Pairwise.cons ?_ hB
            intro b hb
            rw [mkHeadArticle_title]
            intro heq
            exact hA b hb (by rw [← heq]; exact List.mem_cons_self _ _)
          · intro r hr
            rcases List.mem_cons.mp hr with hrh | hrt
            · exact ⟨[], h, rest, rfl, hne, hlen2, hrh,
                fun h3 he3 => absurd he3 (List.not_mem_nil _)⟩
            · obtain ⟨pre, h2, post, hdec, hne2, hlen3, hrec, hexcl⟩ := hC r hrt
              refine ⟨h :: pre, h2, post, by rw [hdec]; rfl, hne2, hlen3, hrec, ?_⟩
              intro h3 he3
              rcases List.mem_cons.mp he3 with hhead | htail2
              · rw [hhead]
                simp only [headKey]
                rw [if_neg (by push_neg; exact ⟨hne, by omega⟩)]
                intro hcontra
                rw [Option.some.injEq] at hcontra
                have hmem := hA r hrt
                rw [hrec, mkHeadArticle_title] at hmem
                exact hmem (by rw [← hcontra]; exact List.mem_cons_self _ _)
              · exact hexcl h3 htail2
      · obtain ⟨hA, hB, hC⟩ := ih pg _ l hl
        refine ⟨?_, hB, ?_⟩
        · intro r hr hmem
          exact hA r hr (List.mem_cons_of_mem _ hmem)
        · intro r hr
          obtain ⟨pre, h2, post, hdec, hne2, hlen3, hrec, hexcl⟩ := hC r hr
          refine ⟨h :: pre, h2, post, by rw [hdec]; rfl, hne2, hlen3, hrec, ?_⟩
          intro h3 he3
          rcases List.mem_cons.mp he3 with hhead | htail2
          · rw [hhead]
            simp only [headKey]
            rw [if_neg (by push_neg; exact ⟨hne, by omega⟩)]
            intro hcontra
            rw [Option.some.injEq] at hcontra
            have hmem := hA r hr
            rw [hrec, mkHeadArticle_title] at hmem
            exact hmem (by rw [← hcontra]; exact List.mem_cons_self _ _)
          · exact hexcl h3 htail2

/-- C10: within one pass of `scrape_static_article` or `scrape_headlines`,
no two returned records share a lowercased title — each strategy's own
seen-title set keeps only the first occurrence in its iteration order: each
record stems from the first element bearing its key, every earlier element
having a different (or no) registered key. -/
theorem c10_single_pass_dedup :
    (∀ pg : StaticPage,
      (scrape_static_article pg).Pairwise (fun a b => pyLower a.title ≠ pyLower b.title)) ∧
    (∀ pg : HeadlinePage,
      (scrape_headlines pg).Pairwise (fun a b => pyLower a.title ≠ pyLower b.title)) ∧
    (∀ (pg : StaticPage) (r : Article), r ∈ scrape_static_article pg →
      ∃ pre e post raw, pg.articles = pre ++ e :: post ∧ e.titleText = some raw ∧
        clean_text raw ≠ [] ∧ r = mkStaticArticle pg e (clean_text raw) ∧
        ∀ e2 ∈ pre, staticKey e2 ≠ some (pyLower (clean_text raw))) ∧
    (∀ (pg : HeadlinePage) (r : Article), r ∈ scrape_headlines pg →
      ∃ pre h post, pg.h1s ++ pg.h2s ++ pg.h3s ++ pg.h4s = pre ++ h :: post ∧
        clean_text h.text ≠ [] ∧ ¬ (clean_text h.text).length < 15 ∧
        r = mkHeadArticle pg h (clean_text h.text) ∧
        ∀ h2 ∈ pre, headKey h2 ≠ some (pyLower (clean_text h.text))) := by
  refine ⟨fun pg => ?_, fun pg => ?_, fun pg r hr => ?_, fun pg r hr => ?_⟩
  · unfold scrape_static_article
    rcases hgo : staticGo pg [] pg.articles with - | l
    · exact List.Pairwise.nil
    · exact (staticGo_inv pg.articles pg [] l hgo).2.1
  · unfold scrape_headlines
    rcases hgo : headGo pg [] (pg.h1s ++ pg.h2s ++ pg.h3s ++ pg.h4s) with - | l
    · exact List.Pairwise.nil
    · exact (headGo_inv _ pg [] l hgo).2.1
  · unfold scrape_static_article at hr
    rcases hgo : staticGo pg [] pg.articles with - | l
    · rw [hgo] at hr
      cases hr
    · rw [hgo] at hr
      exact (staticGo_inv pg.articles pg [] l hgo).2.2 r hr
  · unfold scrape_headlines at hr
    rcases hgo : headGo pg [] (pg.h1s ++ pg.h2s ++ pg.h3s ++ pg.h4s) with - | l
    · rw [hgo] at hr
      cases hr
    · rw [hgo] at hr
      exact (headGo_inv _ pg [] l hgo).2.2 r hr

/-- C10 witness: the first-occurrence decomposition instantiated at a
one-element static page. -/
theorem c10_single_pass_dedup_witness :
    ∃ pre e post raw, c10Page.articles = pre ++ e :: post ∧ e.titleText = some raw ∧
      clean_text raw ≠ [] ∧ c10Rec = mkStaticArticle c10Page e (clean_text raw) ∧
      ∀ e2 ∈ pre, staticKey e2 ≠ some (pyLower (clean_text raw)) :=
  c10_single_pass_dedup.2.2.1 c10Page c10Rec (by decide)

/-- Unfolding for a two-word join. -/
theorem joinSpace_cons_cons (w v : Str) (ws : List Str) :
    joinSpace (w :: v :: ws) = w ++ ' ' :: joinSpace (v :: ws) := rfl

/-- A character moves out of the first word of a join. -/
theorem joinSpace_cons_head (c : Char) (w : Str) (ws : List Str) :
    joinSpace ((c :: w) :: ws) = c :: joinSpace (w :: ws) := by
  cases ws with
  | nil => rfl
  | cons v vs => rfl

/-- A join of nonempty words over a nonempty list is nonempty. -/
theorem joinSpace_ne_nil {ws : List Str} (h : ws ≠ []) (hw : ∀ w ∈ ws, w ≠ []) :
    joinSpace ws ≠ [] := by
  cases ws with
  | nil => exact absurd rfl h
  | cons w vs =>
    cases vs with
    | nil => exact hw w (List.mem_cons_self _ _)
    | cons v vs2 =>
      rw [joinSpace_cons_cons]
      simp

/-- All whitespace in a join of whitespace-free words is the separator. -/
theorem joinSpace_spacesOK {ws : List Str}
    (h : ∀ w ∈ ws, ∀ c ∈ w, pyIsSpaceChar c = false) : SpacesOK (joinSpace ws) := by
  induction ws with
  | nil => intro c hc; cases hc
  | cons w vs ih =>
    cases vs with
    | nil =>
      intro c hc hs
      have := h w (List.mem_cons_self _ _) c hc
      rw [this] at hs
      cases hs
    | cons v vs2 =>
      intro c hc hs
      rw [joinSpace_cons_cons] at hc
      rcases List.mem_append.mp hc with hc | hc
      · have := h w (List.mem_cons_self _ _) c hc
        rw [this] at hs
        cases hs
      · rcases List.mem_cons.mp hc with rfl | hc
        · rfl
        · exact ih (fun u hu => h u (List.mem_cons_of_mem _ hu)) c hc hs

/-- A join of nonempty whitespace-free words has no leading whitespace. -/
theorem joinSpace_noLead {ws : List Str} (hne : ∀ w ∈ ws, w ≠ [])
    (h : ∀ w ∈ ws, ∀ c ∈ w, pyIsSpaceChar c = false) : NoLead (joinSpace ws) := by
  cases ws with
  | nil => intro c hc; cases hc
  | cons w vs =>
    rcases hw : w with - | ⟨a, w'⟩
    · exact absurd hw (hne w (List.mem_cons_self _ _))
    · subst hw
      intro c hc
      rw [joinSpace_cons_head] at hc
      obtain rfl := Option.some.inj hc
      exact h _ (List.mem_cons_self _ _) a (List.mem_cons_self _ _)

/-- A join of nonempty whitespace-free words has no trailing whitespace. -/
theorem joinSpace_noTrail {ws : List Str} (hne : ∀ w ∈ ws, w ≠ [])
    (h : ∀ w ∈ ws, ∀ c ∈ w, pyIsSpaceChar c = false) : NoTrail (joinSpace ws) := by
  induction ws with
  | nil => intro c hc; cases hc
  | cons w vs ih =>
    cases vs with
    | nil =>
      intro c hc
      have hcm := List.mem_of_getLast?_eq_some hc
      exact h w (List.mem_cons_self _ _) c hcm
    | cons v vs2 =>
      intro c hc
      rw [joinSpace_cons_cons, List.getLast?_append] at hc
      have hJ : joinSpace (v :: vs2) ≠ [] :=
        joinSpace_ne_nil (by simp) (fun u hu => hne u (List.mem_cons_of_mem _ hu))
      rcases hJe : joinSpace (v :: vs2) with - | ⟨j, js⟩
      · exact absurd hJe hJ
      · rw [hJe, List.getLast?_cons_cons] at hc
        have hlast : (j :: js).getLast? = some c := by
          rcases hl : (j :: js).getLast? with - | d
          · rw [List.getLast?_eq_none_iff] at hl
            cases hl
          · rw [hl] at hc
            simpa using hc
        apply ih (fun u hu => hne u (List.mem_cons_of_mem _ hu))
          (fun u hu => h u (List.mem_cons_of_mem _ hu))
        rw [hJe]
        exact hlast

/-- A join of nonempty whitespace-free words has no double space. -/
theorem joinSpace_noDbl {ws : List Str} (hne : ∀ w ∈ ws, w ≠ [])
    (h : ∀ w ∈ ws, ∀ c ∈ w, pyIsSpaceChar c = false) : NoDbl (joinSpace ws) := by
  induction ws with
  | nil =>
    intro hocc
    rw [show joinSpace [] = [] from rfl] at hocc
    have := hocc.length_le
    simp at this
  | cons w vs ih =>
    cases vs with
    | nil =>
      intro hocc
      have hmem : ' ' ∈ joinSpace [w] := List.IsInfix.mem (List.mem_cons_self _ _) hocc
      have := h w (List.mem_cons_self _ _) ' ' hmem
      simp [pyIsSpaceChar] at this
    | cons v vs2 =>
      intro hocc
      rw [joinSpace_cons_cons] at hocc
      rcases pair_infix_append hocc with h1 | h2 | h3
      · have hmem : ' ' ∈ w := List.IsInfix.mem (List.mem_cons_self _ _) h1
        have := h w (List.mem_cons_self _ _) ' ' hmem
        simp [pyIsSpaceChar] at this
      · rcases List.infix_cons_iff.mp h2 with hpre | hinf
        · obtain ⟨t, ht⟩ := hpre
          rw [List.cons_append, List.cons_append, List.nil_append] at ht
          obtain ⟨-, h2⟩ := List.cons.inj ht
          have hhead : (joinSpace (v :: vs2)).head? = some ' ' := by
            rw [← h2]
            rfl
          have := joinSpace_noLead (fun u hu => hne u (List.mem_cons_of_mem _ hu))
            (fun u hu => h u (List.mem_cons_of_mem _ hu)) ' ' hhead
          simp [pyIsSpaceChar] at this
        · exact ih (fun u hu => hne u (List.mem_cons_of_mem _ hu))
            (fun u hu => h u (List.mem_cons_of_mem _ hu)) hinf
      · have hmem : ' ' ∈ w := List.mem_of_getLast?_eq_some h3.1
        have := h w (List.mem_cons_self _ _) ' ' hmem
        simp [pyIsSpaceChar] at this

/-- Splitting unfolds one character at a time. -/
theorem pySplitRaw_cons (c : Char) (s : Str) :
    pySplitRaw (c :: s) = splitStep c (pySplitRaw s) := rfl

/-- The split step never returns an empty piece list. -/
theorem splitStep_ne_nil (c : Char) (acc : List Str) : splitStep c acc ≠ [] := by
  unfold splitStep
  split
  · simp
  · split <;> simp

/-- Only the empty string splits into no pieces. -/
theorem pySplitRaw_eq_nil_iff {s : Str} : pySplitRaw s = [] ↔ s = [] := by
  cases s with
  | nil => simp [pySplitRaw]
  | cons c cs =>
    rw [pySplitRaw_cons]
    exact ⟨fun h => absurd h (splitStep_ne_nil c _), fun h => by cases h⟩

/-- Split pieces contain no whitespace. -/
theorem pySplitRaw_spacefree :
    ∀ (s : Str), ∀ w ∈ pySplitRaw s, ∀ c ∈ w, pyIsSpaceChar c = false := by
  intro s
  induction s with
  | nil => intro w hw; cases hw
  | cons a as ih =>
    intro w hw c hc
    rw [pySplitRaw_cons] at hw
    unfold splitStep at hw
    split at hw
    · rcases List.mem_cons.mp hw with rfl | hw
      · cases hc
      · exact ih w hw c hc
    · rename_i ha
      split at hw
      · rename_i hacc
        rcases List.mem_cons.mp hw with rfl | hw
        · rcases List.mem_cons.mp hc with rfl | hc2
          · simpa using ha
          · cases hc2
        · cases hw
      · rename_i w0 ws0 hacc
        rcases List.mem_cons.mp hw with rfl | hw
        · rcases List.mem_cons.mp hc with rfl | hc2
          · simpa using ha
          · exact ih w0 (by rw [hacc]; exact List.mem_cons_self _ _) c hc2
        · exact ih w (by rw [hacc]; exact List.mem_cons_of_mem _ hw) c hc

/-- With only plain spaces and no trailing whitespace, joining the raw
pieces reproduces the string. -/
theorem joinSpace_pySplitRaw :
    ∀ (t : Str), SpacesOK t → NoTrail t → joinSpace (pySplitRaw t) = t := by
  intro t
  induction t with
  | nil => intro _ _; rfl
  | cons c cs ih =>
    intro hsp htr
    have hsp2 : SpacesOK cs := fun d hd hs => hsp d (List.mem_cons_of_mem _ hd) hs
    rw [pySplitRaw_cons]
    by_cases hc : pyIsSpaceChar c = true
    · have hc' : c = ' ' := hsp c (List.mem_cons_self _ _) hc
      unfold splitStep
      rw [if_pos hc]
      rcases hps : pySplitRaw cs with - | ⟨w0, ws0⟩
      · have hcs : cs = [] := pySplitRaw_eq_nil_iff.mp hps
        subst hcs
        have := htr c rfl
        rw [this] at hc
        cases hc
      · have hcs : cs ≠ [] := by
          intro he
          rw [he] at hps
          simp [pySplitRaw] at hps
        have htr2 : NoTrail cs := by
          intro d hd
          apply htr d
          rcases cs with - | ⟨e, es⟩
          · exact absurd rfl hcs
          · rw [List.getLast?_cons_cons]
            exact hd
        have hih := ih hsp2 htr2
        rw [hps] at hih
        calc joinSpace ([] :: w0 :: ws0) = ' ' :: joinSpace (w0 :: ws0) := rfl
          _ = ' ' :: cs := by rw [hih]
          _ = c :: cs := by rw [hc']
    · unfold splitStep
      rw [if_neg hc]
      rcases hps : pySplitRaw cs with - | ⟨w0, ws0⟩
      · have hcs : cs = [] := pySplitRaw_eq_nil_iff.mp hps
        subst hcs
        rfl
      · have hcs : cs ≠ [] := by
          intro he
          rw [he] at hps
          simp [pySplitRaw] at hps
        have htr2 : NoTrail cs := by
          intro d hd
          apply htr d
          rcases cs with - | ⟨e, es⟩
          · exact absurd rfl hcs
          · rw [List.getLast?_cons_cons]
            exact hd
        have hih := ih hsp2 htr2
        rw [hps] at hih
        rw [joinSpace_cons_head, hih]

/-- With plain single spaces and no trailing whitespace, at most the first
raw piece is empty, and only under a leading space. -/
theorem pySplitRaw_no_empty :
    ∀ (t : Str), SpacesOK t → NoDbl t → NoTrail t →
      ([] ∉ pySplitRaw t) ∨
        (t.head? = some ' ' ∧ ∃ rest, pySplitRaw t = [] :: rest ∧ [] ∉ rest) := by
  intro t
  induction t with
  | nil =>
    intro _ _ _
    left
    simp [pySplitRaw]
  | cons c cs ih =>
    intro hsp hdbl htr
    have hsp2 : SpacesOK cs := fun d hd hs => hsp d (List.mem_cons_of_mem _ hd) hs
    have hdbl2 : NoDbl cs := fun hocc =>
      hdbl (List.infix_cons_iff.mpr (Or.inr hocc))
    rw [pySplitRaw_cons]
    by_cases hc : pyIsSpaceChar c = true
    · have hc' : c = ' ' := hsp c (List.mem_cons_self _ _) hc
      have hcs : cs ≠ [] := by
        intro he
        subst he
        have := htr c rfl
        rw [this] at hc
        cases hc
      have htr2 : NoTrail cs := by
        intro d hd
        apply htr d
        rcases cs with - | ⟨e, es⟩
        · exact absurd rfl hcs
        · rw [List.getLast?_cons_cons]
          exact hd
      have hnold : ∀ d, cs.head? = some d → pyIsSpaceChar d = false := by
        intro d hd
        by_contra hds
        rw [Bool.not_eq_false] at hds
        have hd' : d = ' ' := hsp2 d (List.mem_of_mem_head? hd) hds
        rcases cs with - | ⟨e, es⟩
        · cases hd
        · have he : e = d := Option.some.inj hd
          exact hdbl ⟨[], es, by rw [hc', he, hd']; rfl⟩
      have hnoem : [] ∉ pySplitRaw cs := by
        rcases ih hsp2 hdbl2 htr2 with h1 | ⟨hh, -⟩
        · exact h1
        · have := hnold ' ' hh
          simp [pyIsSpaceChar] at this
      unfold splitStep
      rw [if_pos hc]
      right
      exact ⟨by rw [hc']; rfl, pySplitRaw cs, rfl, hnoem⟩
    · unfold splitStep
      rw [if_neg hc]
      rcases hps : pySplitRaw cs with - | ⟨w0, ws0⟩
      · left
        simp
      · have hcs : cs ≠ [] := by
          intro he
          rw [he] at hps
          simp [pySplitRaw] at hps
        have htr2 : NoTrail cs := by
          intro d hd
          apply htr d
          rcases cs with - | ⟨e, es⟩
          · exact absurd rfl hcs
          · rw [List.getLast?_cons_cons]
            exact hd
        rcases ih hsp2 hdbl2 htr2 with h1 | ⟨-, rest, hrest, hnr⟩
        · rw [hps] at h1
          left
          intro hmem
          rcases List.mem_cons.mp hmem with he | hmem2
          · cases he
          · exact h1 (List.mem_cons_of_mem _ hmem2)
        · rw [hps] at hrest
          obtain ⟨he0, hrest2⟩ := List.cons.inj hrest
          subst he0
          subst hrest2
          left
          intro hmem
          rcases List.mem_cons.mp hmem with he | hmem2
          · cases he
          · exact hnr hmem2

/-- The full normalization fixed point: a string in space normal form is
unchanged by `wsNorm`. -/
theorem wsNorm_id {t : Str} (hsp : SpacesOK t) (hdbl : NoDbl t) (hld : NoLead t)
    (htr : NoTrail t) : wsNorm t = t := by
  unfold wsNorm pySplit
  have hnoempty : [] ∉ pySplitRaw t := by
    rcases pySplitRaw_no_empty t hsp hdbl htr with h1 | ⟨hh, -⟩
    · exact h1
    · have := hld ' ' hh
      simp [pyIsSpaceChar] at this
  rw [List.filter_eq_self.mpr (fun w hw => by
    simp only [decide_eq_true_eq]
    intro he
    exact hnoempty (he ▸ hw))]
  exact joinSpace_pySplitRaw t hsp htr

/-- The words of `pySplit` are nonempty and whitespace-free. -/
theorem pySplit_words (s : Str) :
    (∀ w ∈ pySplit s, w ≠ []) ∧ (∀ w ∈ pySplit s, ∀ c ∈ w, pyIsSpaceChar c = false) := by
  constructor
  · intro w hw
    have := List.of_mem_filter hw
    simpa using this
  · intro w hw
    exact pySplitRaw_spacefree s w (List.mem_of_mem_filter hw)

/-- `wsNorm` output is in space normal form. -/
theorem wsNorm_nf (s : Str) :
    SpacesOK (wsNorm s) ∧ NoDbl (wsNorm s) ∧ NoLead (wsNorm s) ∧ NoTrail (wsNorm s) := by
  obtain ⟨h1, h2⟩ := pySplit_words s
  exact ⟨joinSpace_spacesOK h2, joinSpace_noDbl h1 h2, joinSpace_noLead h1 h2,
    joinSpace_noTrail h1 h2⟩

/-- Characters of `fixRupee` output come from the input or are the rupee
sign. -/
theorem fixRupee_chars : ∀ (s : Str), ∀ c ∈ fixRupee s, c ∈ s ∨ c = '₹' := by
  intro s
  induction s using fixRupee.induct with
  | case1 rest ih =>
    intro c hc
    rw [fixRupee.eq_1] at hc
    rcases List.mem_cons.mp hc with rfl | hc
    · right; rfl
    · rcases ih c hc with h | h
      · left
        exact List.mem_cons_of_mem _ (List.mem_cons_of_mem _ (List.mem_cons_of_mem _ h))
      · right; exact h
  | case2 c0 rest hcond ih =>
    intro c hc
    rw [fixRupee.eq_2 c0 rest hcond] at hc
    rcases List.mem_cons.mp hc with rfl | hc
    · left; exact List.mem_cons_self _ _
    · rcases ih c hc with h | h
      · left; exact List.mem_cons_of_mem _ h
      · right; exact h
  | case3 => intro c hc; cases hc

/-- Only the empty string maps to the empty string under `fixRupee`. -/
theorem fixRupee_eq_nil_iff : ∀ {s : Str}, fixRupee s = [] ↔ s = [] := by
  intro s
  induction s using fixRupee.induct with
  | case1 rest ih => rw [fixRupee.eq_1]; simp
  | case2 c0 rest hcond ih => rw [fixRupee.eq_2 c0 rest hcond]; simp
  | case3 => simp [fixRupee]

/-- The head of `fixRupee` output is the rupee sign or the input head. -/
theorem fixRupee_head :
    ∀ (s : Str) (c : Char), (fixRupee s).head? = some c → c = '₹' ∨ s.head? = some c := by
  intro s
  induction s using fixRupee.induct with
  | case1 rest ih =>
    intro c hc
    rw [fixRupee.eq_1] at hc
    left
    exact (Option.some.inj hc).symm
  | case2 c0 rest hcond ih =>
    intro c hc
    rw [fixRupee.eq_2 c0 rest hcond] at hc
    right
    exact hc
  | case3 => intro c hc; cases hc

/-- `getLast?` for a cons with nonempty tail. -/
theorem getLast?_cons_of_ne_nil {a : Char} {l : Str} (h : l ≠ []) :
    (a :: l).getLast? = l.getLast? := by
  rcases l with - | ⟨b, bs⟩
  · exact absurd rfl h
  · exact List.getLast?_cons_cons

/-- The last character of `fixRupee` output is the rupee sign or the input
last. -/
theorem fixRupee_last :
    ∀ (s : Str) (c : Char), (fixRupee s).getLast? = some c → c = '₹' ∨ s.getLast? = some c := by
  intro s
  induction s using fixRupee.induct with
  | case1 rest ih =>
    intro c hc
    rw [fixRupee.eq_1] at hc
    rcases hF : fixRupee rest with - | ⟨f, fs⟩
    · rw [hF] at hc
      left
      exact (Option.some.inj hc).symm
    · rw [hF, List.getLast?_cons_cons, ← hF] at hc
      rcases ih c hc with h | h
      · left; exact h
      · right
        have hrest : rest ≠ [] := by
          intro he
          rw [he] at hF
          simp [fixRupee] at hF
        rw [getLast?_cons_of_ne_nil (by simp), getLast?_cons_of_ne_nil (by simp),
          getLast?_cons_of_ne_nil hrest]
        exact h
  | case2 c0 rest hcond ih =>
    intro c hc
    rw [fixRupee.eq_2 c0 rest hcond] at hc
    rcases hF : fixRupee rest with - | ⟨f, fs⟩
    · have hrest : rest = [] := fixRupee_eq_nil_iff.mp hF
      subst hrest
      rw [hF] at hc
      right
      exact hc
    · rw [hF, List.getLast?_cons_cons, ← hF] at hc
      rcases ih c hc with h | h
      · left; exact h
      · right
        have hrest : rest ≠ [] := by
          intro he
          rw [he] at hF
          simp [fixRupee] at hF
        rw [getLast?_cons_of_ne_nil hrest]
        exact h
  | case3 => intro c hc; cases hc

/-- `fixRupee` keeps whitespace normal. -/
theorem fixRupee_spacesOK {s : Str} (h : SpacesOK s) : SpacesOK (fixRupee s) := by
  intro c hc hs
  rcases fixRupee_chars s c hc with hm | rfl
  · exact h c hm hs
  · exact absurd hs (by decide)

/-- `fixRupee` keeps the absence of leading whitespace. -/
theorem fixRupee_noLead {s : Str} (h : NoLead s) : NoLead (fixRupee s) := by
  intro c hc
  rcases fixRupee_head s c hc with rfl | hh
  · decide
  · exact h c hh

/-- `fixRupee` keeps the absence of trailing whitespace. -/
theorem fixRupee_noTrail {s : Str} (h : NoTrail s) : NoTrail (fixRupee s) := by
  intro c hc
  rcases fixRupee_last s c hc with rfl | hh
  · decide
  · exact h c hh

/-- `fixRupee` keeps the absence of double spaces. -/
theorem fixRupee_noDbl : ∀ (s : Str), NoDbl s → NoDbl (fixRupee s) := by
  intro s
  induction s using fixRupee.induct with
  | case1 rest ih =>
    intro hdbl hocc
    rw [fixRupee.eq_1] at hocc
    rcases List.infix_cons_iff.mp hocc with hpre | hinf
    · obtain ⟨t, ht⟩ := hpre
      obtain ⟨h1, -⟩ := List.cons.inj ht
      exact absurd h1 (by decide)
    · exact ih (fun ho => hdbl (List.infix_cons_iff.mpr (Or.inr
        (List.infix_cons_iff.mpr (Or.inr (List.infix_cons_iff.mpr (Or.inr ho))))))) hinf
  | case2 c0 rest hcond ih =>
    intro hdbl hocc
    rw [fixRupee.eq_2 c0 rest hcond] at hocc
    rcases List.infix_cons_iff.mp hocc with hpre | hinf
    · obtain ⟨t, ht⟩ := hpre
      obtain ⟨h1, h2⟩ := List.cons.inj ht
      have hFh : (fixRupee rest).head? = some ' ' := by
        rw [← h2]
        rfl
      rcases fixRupee_head rest ' ' hFh with h3 | h3
      · exact absurd h3 (by decide)
      · apply hdbl
        rcases rest with - | ⟨d, ds⟩
        · cases h3
        · have hd := Option.some.inj h3
          exact ⟨[], ds, by rw [← h1, hd]; rfl⟩
    · exact ih (fun ho => hdbl (List.infix_cons_iff.mpr (Or.inr ho))) hinf
  | case3 =>
    intro _ hocc
    rw [show fixRupee [] = [] from rfl] at hocc
    have := hocc.length_le
    simp at this

/-- A rupee-free prefix of `fixRupee` output is a prefix of the input. -/
theorem fixRupee_prefix_reflect :
    ∀ (s : Str) (q : Str), (∀ x ∈ q, x ≠ '₹') → q <+: fixRupee s → q <+: s := by
  intro s
  induction s using fixRupee.induct with
  | case1 rest ih =>
    intro q hq hpre
    rcases q with - | ⟨x, q'⟩
    · exact List.nil_prefix
    · rw [fixRupee.eq_1] at hpre
      obtain ⟨t, ht⟩ := hpre
      obtain ⟨h1, -⟩ := List.cons.inj ht
      exact absurd h1 (hq x (List.mem_cons_self _ _))
  | case2 c0 rest hcond ih =>
    intro q hq hpre
    rcases q with - | ⟨x, q'⟩
    · exact List.nil_prefix
    · rw [fixRupee.eq_2 c0 rest hcond] at hpre
      obtain ⟨t, ht⟩ := hpre
      obtain ⟨h1, h2⟩ := List.cons.inj ht
      have hq' : q' <+: rest :=
        ih q' (fun x hx => hq x (List.mem_cons_of_mem _ hx)) ⟨t, h2⟩
      obtain ⟨t2, ht2⟩ := hq'
      exact ⟨t2, by rw [h1, List.cons_append, ht2]⟩
  | case3 =>
    intro q hq hpre
    rw [show fixRupee [] = [] from rfl] at hpre
    exact hpre

/-- `fixRupee` output never contains the mis-encoded sequence again. -/
theorem fixRupee_noOcc : ∀ (s : Str), ¬ (RUPEE_BAD <:+: fixRupee s) := by
  intro s
  induction s using fixRupee.induct with
  | case1 rest ih =>
    intro hocc
    rw [fixRupee.eq_1] at hocc
    rcases List.infix_cons_iff.mp hocc with hpre | hinf
    · obtain ⟨t, ht⟩ := hpre
      obtain ⟨h1, -⟩ := List.cons.inj ht
      exact absurd h1 (by decide)
    · exact ih hinf
  | case2 c0 rest hcond ih =>
    intro hocc
    rw [fixRupee.eq_2 c0 rest hcond] at hocc
    rcases List.infix_cons_iff.mp hocc with hpre | hinf
    · obtain ⟨t, ht⟩ := hpre
      obtain ⟨h1, h2⟩ := List.cons.inj ht
      have hq : ['‚', '¹'] <+: fixRupee rest := ⟨t, h2⟩
      have hq2 := fixRupee_prefix_reflect rest ['‚', '¹'] (by decide) hq
      obtain ⟨t2, ht2⟩ := hq2
      exact hcond t2 h1.symm ht2.symm
    · exact ih hinf
  | case3 =>
    intro hocc
    rw [show fixRupee [] = [] from rfl] at hocc
    have := hocc.length_le
    simp [RUPEE_BAD] at this

/-- Without an occurrence of the mis-encoded sequence, `fixRupee` does
nothing. -/
theorem fixRupee_id : ∀ (s : Str), ¬ (RUPEE_BAD <:+: s) → fixRupee s = s := by
  intro s
  induction s using fixRupee.induct with
  | case1 rest ih =>
    intro hno
    exact absurd ⟨[], rest, rfl⟩ hno
  | case2 c0 rest hcond ih =>
    intro hno
    rw [fixRupee.eq_2 c0 rest hcond]
    rw [ih (fun ho => hno (List.infix_cons_iff.mpr (Or.inr ho)))]
  | case3 => intro _; rfl

/-- A single-character replace with no occurrence does nothing. -/
theorem pyReplaceChar_id {a b : Char} {s : Str} (h : a ∉ s) : pyReplaceChar a b s = s := by
  unfold pyReplaceChar
  have hcongr : s.map (fun c => if c = a then b else c) = s.map id :=
    List.map_congr_left (fun c hc => by
      rw [if_neg (fun (he : c = a) => h (he ▸ hc))]
      rfl)
  rw [hcongr, List.map_id]

/-- After replacing `’` by an apostrophe, no `’` remains. -/
theorem rsquo_map_not_mem (s : Str) : '’' ∉ pyReplaceChar '’' (Char.ofNat 39) s := by
  intro hc
  unfold pyReplaceChar at hc
  obtain ⟨c', -, he⟩ := List.mem_map.mp hc
  by_cases h : c' = '’'
  · rw [if_pos h] at he
    exact absurd he (by decide)
  · rw [if_neg h] at he
    exact h he

/-- The apostrophe substitution preserves whitespace status. -/
theorem rsquo_subst_space (c : Char) :
    pyIsSpaceChar (if c = '’' then Char.ofNat 39 else c) = pyIsSpaceChar c := by
  by_cases h : c = '’'
  · rw [if_pos h, h]
    decide
  · rw [if_neg h]

/-- The apostrophe substitution keeps whitespace normal. -/
theorem rsquo_map_spacesOK {s : Str} (h : SpacesOK s) :
    SpacesOK (pyReplaceChar '’' (Char.ofNat 39) s) := by
  intro c hc hs
  obtain ⟨c', hc', he⟩ := List.mem_map.mp hc
  subst he
  rw [rsquo_subst_space] at hs
  rw [h c' hc' hs]
  decide

/-- The apostrophe substitution keeps the absence of leading whitespace. -/
theorem rsquo_map_noLead {s : Str} (h : NoLead s) :
    NoLead (pyReplaceChar '’' (Char.ofNat 39) s) := by
  intro c hc
  unfold pyReplaceChar at hc
  rw [List.head?_map] at hc
  rcases hs : s.head? with - | d
  · rw [hs] at hc
    cases hc
  · rw [hs] at hc
    obtain rfl := Option.some.inj hc
    rw [rsquo_subst_space]
    exact h d hs

/-- The apostrophe substitution keeps the absence of trailing whitespace. -/
theorem rsquo_map_noTrail {s : Str} (h : NoTrail s) :
    NoTrail (pyReplaceChar '’' (Char.ofNat 39) s) := by
  intro c hc
  unfold pyReplaceChar at hc
  rw [List.getLast?_map] at hc
  rcases hs : s.getLast? with - | d
  · rw [hs] at hc
    cases hc
  · rw [hs] at hc
    obtain rfl := Option.some.inj hc
    rw [rsquo_subst_space]
    exact h d hs

/-- An infix of a mapped list is the image of an infix. -/
theorem infix_map_reflect {f : Char → Char} {pat u : Str} (h : pat <:+: List.map f u) :
    ∃ q, q <:+: u ∧ List.map f q = pat := by
  obtain ⟨s1, t1, he⟩ := h
  have he2 : List.map f u = s1 ++ (pat ++ t1) := by
    rw [← he, List.append_assoc]
  obtain ⟨u1, u2, hu, -, hm2⟩ := List.map_eq_append_iff.mp he2
  obtain ⟨q, u3, hu2, hq, -⟩ := List.map_eq_append_iff.mp hm2
  exact ⟨q, ⟨u1, u3, by rw [hu, hu2, List.append_assoc]⟩, hq⟩

/-- The apostrophe substitution maps only a space to a space. -/
theorem rsquo_subst_eq_space {c : Char} (h : (if c = '’' then Char.ofNat 39 else c) = ' ') :
    c = ' ' := by
  by_cases hc : c = '’'
  · rw [if_pos hc] at h
    exact absurd h (by decide)
  · rwa [if_neg hc] at h

/-- The apostrophe substitution keeps the absence of double spaces. -/
theorem rsquo_map_noDbl {s : Str} (h : NoDbl s) :
    NoDbl (pyReplaceChar '’' (Char.ofNat 39) s) := by
  intro hocc
  unfold pyReplaceChar at hocc
  obtain ⟨q, hq, hm⟩ := infix_map_reflect hocc
  have hlen : q.length = 2 := by
    have := congrArg List.length hm
    simpa using this
  rcases q with - | ⟨c1, - | ⟨c2, - | ⟨c3, q4⟩⟩⟩ <;> simp at hlen
  simp only [List.map_cons, List.map_nil] at hm
  obtain ⟨h1, h2⟩ := List.cons.inj hm
  obtain ⟨h3, -⟩ := List.cons.inj h2
  have h1' : (if c1 = '’' then Char.ofNat 39 else c1) = ' ' := h1
  have h3' : (if c2 = '’' then Char.ofNat 39 else c2) = ' ' := h3
  rw [rsquo_subst_eq_space h1', rsquo_subst_eq_space h3'] at hq
  exact h hq

/-- The apostrophe substitution keeps rupee-sequence freedom. -/
theorem rsquo_map_noOcc {s : Str} (h : ¬ (RUPEE_BAD <:+: s)) :
    ¬ (RUPEE_BAD <:+: pyReplaceChar '’' (Char.ofNat 39) s) := by
  intro hocc
  unfold pyReplaceChar at hocc
  obtain ⟨q, hq, hm⟩ := infix_map_reflect hocc
  have hsub : ∀ (c p : Char), (if c = '’' then Char.ofNat 39 else c) = p → p ∈ RUPEE_BAD →
      c = p := by
    intro c p hcp hp
    by_cases hc : c = '’'
    · rw [if_pos hc] at hcp
      subst hcp
      exact absurd hp (by decide)
    · rwa [if_neg hc] at hcp
  have hlen : q.length = 3 := by
    have := congrArg List.length hm
    simpa [RUPEE_BAD] using this
  rcases q with - | ⟨c1, - | ⟨c2, - | ⟨c3, - | ⟨c4, q5⟩⟩⟩⟩ <;> simp at hlen
  simp only [List.map_cons, List.map_nil, RUPEE_BAD] at hm
  obtain ⟨h1, h2⟩ := List.cons.inj hm
  obtain ⟨h3, h4⟩ := List.cons.inj h2
  obtain ⟨h5, -⟩ := List.cons.inj h4
  have h1' : (if c1 = '’' then Char.ofNat 39 else c1) = 'â' := h1
  have h3' : (if c2 = '’' then Char.ofNat 39 else c2) = '‚' := h3
  have h5' : (if c3 = '’' then Char.ofNat 39 else c3) = '¹' := h5
  rw [hsub c1 'â' h1' (by decide), hsub c2 '‚' h3' (by decide),
    hsub c3 '¹' h5' (by decide)] at hq
  exact h (by simpa [RUPEE_BAD] using hq)

/-- The apostrophe substitution introduces no non-breaking space. -/
theorem rsquo_map_not_mem_nbsp {s : Str} (h : '\xa0' ∉ s) :
    '\xa0' ∉ pyReplaceChar '’' (Char.ofNat 39) s := by
  intro hc
  unfold pyReplaceChar at hc
  obtain ⟨c', hc', he⟩ := List.mem_map.mp hc
  by_cases hcq : c' = '’'
  · rw [if_pos hcq] at he
    exact absurd he (by decide)
  · rw [if_neg hcq] at he
    exact h (he ▸ hc')

/-- The empty string is in clean normal form. -/
theorem CleanNF_nil : CleanNF ([] : Str) := by
  unfold CleanNF
  refine ⟨?_, ?_, ?_, ?_, ?_, ?_, ?_⟩
  · intro c hc
    cases hc
  · intro hocc
    have := hocc.length_le
    simp at this
  · intro c hc
    simp at hc
  · intro c hc
    simp at hc
  · intro hocc
    have := hocc.length_le
    simp [RUPEE_BAD] at this
  · exact List.not_mem_nil _
  · exact List.not_mem_nil _

/-- A string in clean normal form is a fixed point of the news
normalizer. -/
theorem clean_text_id {t : Str} (h : CleanNF t) : clean_text t = t := by
  obtain ⟨hsp, hdbl, hld, htr, hocc, hnbsp, hrsq⟩ := h
  by_cases ht : t = []
  · rw [ht]
    rfl
  · unfold clean_text
    rw [if_neg ht, wsNorm_id hsp hdbl hld htr, fixRupee_id t hocc,
      pyReplaceChar_id hnbsp, pyReplaceChar_id hrsq]
    exact pyStrip_id hld htr

/-- The news normalizer always lands in clean normal form. -/
theorem clean_text_nf (s : Str) : CleanNF (clean_text s) := by
  by_cases hs : s = []
  · rw [hs, show clean_text [] = [] from rfl]
    exact CleanNF_nil
  · unfold clean_text
    rw [if_neg hs]
    obtain ⟨h0sp, h0dbl, h0ld, h0tr⟩ := wsNorm_nf s
    have h0nbsp : '\xa0' ∉ wsNorm s := by
      intro hm
      have := h0sp _ hm (by decide)
      exact absurd this (by decide)
    have h1sp := fixRupee_spacesOK h0sp
    have h1dbl := fixRupee_noDbl _ h0dbl
    have h1ld := fixRupee_noLead h0ld
    have h1tr := fixRupee_noTrail h0tr
    have h1occ := fixRupee_noOcc (wsNorm s)
    have h1nbsp : '\xa0' ∉ fixRupee (wsNorm s) := by
      intro hm
      rcases fixRupee_chars _ _ hm with hm2 | he
      · exact h0nbsp hm2
      · exact absurd he (by decide)
    rw [pyReplaceChar_id h1nbsp]
    have h3sp := rsquo_map_spacesOK h1sp
    have h3dbl := rsquo_map_noDbl h1dbl
    have h3ld := rsquo_map_noLead h1ld
    have h3tr := rsquo_map_noTrail h1tr
    have h3occ := rsquo_map_noOcc h1occ
    have h3nbsp := rsquo_map_not_mem_nbsp h1nbsp
    have h3rsq := rsquo_map_not_mem (fixRupee (wsNorm s))
    have hstr := pyStrip_infix (pyReplaceChar '’' (Char.ofNat 39) (fixRupee (wsNorm s)))
    exact ⟨ spacesOK_of_infix hstr h3sp, noDbl_of_infix hstr h3dbl, pyStrip_noLead _,
      pyStrip_noTrail _, notInfix_of_infix hstr h3occ, notMem_of_infix hstr h3nbsp,
      notMem_of_infix hstr h3rsq⟩

/-- `subWS` unfolds one character at a time. -/
theorem subWS_cons (c : Char) (cs : Str) : subWS (c :: cs) = subWSStep c (subWS cs) := rfl

/-- The collapse step never empties the accumulator. -/
theorem subWSStep_ne_nil (c : Char) (acc : Str) : subWSStep c acc ≠ [] := by
  unfold subWSStep
  split
  · split
    · rename_i hh
      intro he
      rw [he] at hh
      cases hh
    · simp
  · simp

/-- Only the empty string collapses to the empty string. -/
theorem subWS_eq_nil_iff {s : Str} : subWS s = [] ↔ s = [] := by
  cases s with
  | nil => simp [subWS]
  | cons c cs =>
    rw [subWS_cons]
    exact ⟨fun h => absurd h (subWSStep_ne_nil _ _), fun h => by cases h⟩

/-- All whitespace in `subWS` output is a plain space. -/
theorem subWS_spacesOK (s : Str) : SpacesOK (subWS s) := by
  induction s with
  | nil => intro c hc; cases hc
  | cons c cs ih =>
    rw [subWS_cons]
    unfold subWSStep
    split
    · split
      · exact ih
      · intro d hd hs
        rcases List.mem_cons.mp hd with rfl | hd
        · rfl
        · exact ih d hd hs
    · rename_i hc
      intro d hd hs
      rcases List.mem_cons.mp hd with rfl | hd2
      · exact absurd hs hc
      · exact ih d hd2 hs

/-- `subWS` output has no two adjacent spaces. -/
theorem subWS_noDbl (s : Str) : NoDbl (subWS s) := by
  induction s with
  | nil =>
    intro hocc
    have := hocc.length_le
    simp [subWS] at this
  | cons c cs ih =>
    rw [subWS_cons]
    unfold subWSStep
    split
    · split
      · exact ih
      · rename_i hsp hh
        intro hocc
        rcases List.infix_cons_iff.mp hocc with hpre | hinf
        · obtain ⟨t, ht⟩ := hpre
          obtain ⟨-, h2⟩ := List.cons.inj ht
          apply hh
          rw [← h2]
          rfl
        · exact ih hinf
    · rename_i hsp
      intro hocc
      rcases List.infix_cons_iff.mp hocc with hpre | hinf
      · obtain ⟨t, ht⟩ := hpre
        obtain ⟨h1, -⟩ := List.cons.inj ht
        apply hsp
        rw [← h1]
        decide
      · exact ih hinf

/-- `subWS` keeps the absence of leading whitespace. -/
theorem subWS_noLead {s : Str} (h : NoLead s) : NoLead (subWS s) := by
  cases s with
  | nil => intro c hc; simp [subWS] at hc
  | cons c cs =>
    rw [subWS_cons]
    unfold subWSStep
    have hc := h c rfl
    rw [if_neg (by simp [hc])]
    intro d hd
    have hcd : c = d := Option.some.inj hd
    rw [← hcd]
    exact hc

/-- `subWS` keeps the absence of trailing whitespace. -/
theorem subWS_noTrail {s : Str} (h : NoTrail s) : NoTrail (subWS s) := by
  induction s with
  | nil => intro c hc; simp [subWS] at hc
  | cons c cs ih =>
    rcases hcs : cs with - | ⟨d, ds⟩
    · subst hcs
      have hc := h c rfl
      rw [subWS_cons]
      unfold subWSStep
      rw [if_neg (by simp [hc])]
      intro x hx
      have hcx : c = x := Option.some.inj hx
      rw [← hcx]
      exact hc
    · subst hcs
      have htr2 : NoTrail (d :: ds) := fun x hx =>
        h x (by rw [List.getLast?_cons_cons]; exact hx)
      have hW := ih htr2
      have hne : subWS (d :: ds) ≠ [] := fun he => by simp [subWS_eq_nil_iff] at he
      rw [subWS_cons]
      unfold subWSStep
      split
      · split
        · exact hW
        · intro x hx
          rw [getLast?_cons_of_ne_nil hne] at hx
          exact hW x hx
      · intro x hx
        rw [getLast?_cons_of_ne_nil hne] at hx
        exact hW x hx

/-- A string with single plain spaces is a fixed point of `subWS`. -/
theorem subWS_id : ∀ {s : Str}, SpacesOK s → NoDbl s → subWS s = s := by
  intro s
  induction s with
  | nil => intro _ _; rfl
  | cons c cs ih =>
    intro hsp hdbl
    have hsp2 : SpacesOK cs := fun d hd hs => hsp d (List.mem_cons_of_mem _ hd) hs
    have hdbl2 : NoDbl cs := fun ho => hdbl (List.infix_cons_iff.mpr (Or.inr ho))
    have hcs := ih hsp2 hdbl2
    rw [subWS_cons]
    unfold subWSStep
    rw [hcs]
    by_cases hc : pyIsSpaceChar c = true
    · have hc' : c = ' ' := hsp c (List.mem_cons_self _ _) hc
      rw [if_pos hc]
      by_cases hh : cs.head? = some ' '
      · exfalso
        apply hdbl
        rcases cs with - | ⟨d, ds⟩
        · cases hh
        · have hd : d = ' ' := Option.some.inj hh
          exact ⟨[], ds, by rw [hc', hd]; rfl⟩
      · rw [if_neg hh, hc']
    · rw [if_neg hc]

/-- C5: both Text Normalizers are idempotent: applying
news_scraper.py's `clean_text` or detail.py's `clean_text` twice equals
applying it once, for every string. -/
theorem c5_normalizer_idempotent :
    ∀ s : Str, clean_text (clean_text s) = clean_text s ∧
      detail_clean_text (detail_clean_text s) = detail_clean_text s := by
  intro s
  constructor
  · exact clean_text_id (clean_text_nf s)
  · by_cases hs : s = []
    · rw [hs]
      rfl
    · have hval : detail_clean_text s = subWS (pyStrip s) := by
        unfold detail_clean_text
        rw [if_neg hs]
      rw [hval]
      by_cases hun : subWS (pyStrip s) = []
      · rw [hun]
        rfl
      · show detail_clean_text (subWS (pyStrip s)) = subWS (pyStrip s)
        unfold detail_clean_text
        rw [if_neg hun,
          pyStrip_id (subWS_noLead (pyStrip_noLead s)) (subWS_noTrail (pyStrip_noTrail s))]
        exact subWS_id (subWS_spacesOK _) (subWS_noDbl _)

/-- C1: the claim says that every title with at most 2 words, no digit, and
either all-uppercase or starting uppercase without `:`/`-`/`?`/`!` is
rejected by `is_valid_article` regardless of summary and link.  The code
instead tests `isupper` on the already-lowercased title (always false), so
the bare-name branch never fires, and the later all-caps check admits any
such title containing a comma.  `"HELLO, WORLDNEWS"` is all-uppercase, has
2 words and no digit, yet the classifier accepts it. -/
theorem c1_bare_name_heuristic_dead :
    is_valid_article ("HELLO, WORLDNEWS".toList)
      ("Shares of the firm rose sharply after the earnings call.".toList)
      ("https://news.example.com/markets/story".toList) = some true := by
  decide

/-- C4: `validate_date` returns true iff the string contains neither
`00-00` nor `00/00` and the leftmost match of `20[2-3][0-9]` (Python
`re.search` semantics: "that year" is the first such token) has numeric
value in [2020, 2030]; in particular `validate_date "15 Jan 2031"` is false
and `validate_date "2024-03-10"` is true. -/
theorem c4_validate_date_spec :
    (∀ s : Str, validate_date s = true ↔
      (subB BAD_DATE_1 s = false ∧ subB BAD_DATE_2 s = false ∧
        ∃ y, yearMatch s = some y ∧ 2020 ≤ y ∧ y ≤ 2030)) ∧
    validate_date ("15 Jan 2031".toList) = false ∧
    validate_date ("2024-03-10".toList) = true := by
  refine ⟨fun s => ?_, by decide, by decide⟩
  unfold validate_date
  by_cases hs : s = []
  · subst hs
    simp [yearMatch]
  · rw [if_neg hs]
    by_cases h1 : subB BAD_DATE_1 s = true
    · simp [h1]
    · by_cases h2 : subB BAD_DATE_2 s = true
      · simp [h1, h2]
      · rw [Bool.not_eq_true] at h1 h2
        rw [if_neg (by simp [h1, h2])]
        rcases hy : yearMatch s with - | y
        · simp [hy, h1, h2]
        · simp [hy, h1, h2]

end MH
